import Mathlib

/-!
# Lua-CLR-Bridge: interjection hook, cancellation and allocation tracking

A shallow embedding of

* `src/LuaWrapper/Hook.cpp` (`luaW_presethook`, `luaW_enablehook`, `luaW_disablehook`),
* `src/LuaWrapper/Wrapper.cpp` (`toCString`, `LuaAllocTracker`, `LuaAllocTracker_alloc`,
  `LuaInterjector`, `LuaHelper::luaH_setnewinterjectionhook`),

followed by theorems about these definitions.

Conventions.  A C pointer is a natural number, `0` being `NULL`.  `size_t` values are
natural numbers reduced modulo `2 ^ w`, where `w` is the width of the platform word.
A byte is a natural number.  A C function that writes through a pointer and returns a
value becomes a function returning the pair of the new state and the result.
-/

namespace Lua

/-! ## The interpreter fields touched by `Hook.cpp` -/

/-- The C type `lua_Hook`: the address of a hook function, `0` for `NULL`. -/
abbrev lua_Hook := Nat

/-- The part of `CallInfo` read by `luaW_presethook`: whether the frame runs a Lua
function (`isLua(ci)`) and its `u.l.savedpc`. -/
structure CallInfo where
  isLua : Bool
  savedpc : Nat
deriving DecidableEq, Repr

/-- The hook-related fields of `lua_State`. -/
structure lua_State where
  ci : CallInfo
  oldpc : Nat
  hook : lua_Hook
  basehookcount : Int
  hookcount : Int
  hookmask : Nat
deriving DecidableEq, Repr

/-- Modelled from the spec: `lua.h` is not among the sources.  The event codes are
`LUA_HOOKCALL = 0`, `LUA_HOOKRET = 1`, `LUA_HOOKLINE = 2`, `LUA_HOOKCOUNT = 3`, and each
mask is `1 << code`; this one is the call-event mask. -/
def LUA_MASKCALL : Nat := 1 <<< 0

/-- Modelled from the spec: the return-event mask of `lua.h`, `1 << LUA_HOOKRET`. -/
def LUA_MASKRET : Nat := 1 <<< 1

/-- Modelled from the spec: the line-event mask of `lua.h`, `1 << LUA_HOOKLINE`. -/
def LUA_MASKLINE : Nat := 1 <<< 2

/-- Modelled from the spec: the instruction-count mask of `lua.h`, `1 << LUA_HOOKCOUNT`. -/
def LUA_MASKCOUNT : Nat := 1 <<< 3

/-- Modelled from the spec: the macro `cast_byte` of the interpreter headers, a
conversion to `unsigned char`. -/
def cast_byte (i : Nat) : Nat := i % 256

/-- Modelled from the spec: the macro `resethookcount` of the interpreter headers,
`L->hookcount = L->basehookcount` (the saved hook bookkeeping is reset to the threshold). -/
def resethookcount (L : lua_State) : lua_State :=
  { L with hookcount := L.basehookcount }

/-- `luaW_presethook` of `Hook.cpp`. -/
def luaW_presethook (L : lua_State) (func : lua_Hook) : lua_State × Int :=
  let L1 := if L.ci.isLua then { L with oldpc := L.ci.savedpc } else L
  let L2 := { L1 with hook := func }
  let L3 := { L2 with basehookcount := 1 }
  let L4 := resethookcount L3
  let L5 := { L4 with hookmask := cast_byte 0 }
  (L5, 1)

/-- `luaW_enablehook` of `Hook.cpp`. -/
def luaW_enablehook (L : lua_State) : lua_State × Int :=
  ({ L with hookmask := cast_byte (LUA_MASKCALL ||| LUA_MASKRET ||| LUA_MASKCOUNT) }, 1)

/-- `luaW_disablehook` of `Hook.cpp`. -/
def luaW_disablehook (L : lua_State) : lua_State × Int :=
  ({ L with hookmask := cast_byte 0 }, 1)

/-- Modelled from the spec: the interpreter's safepoint dispatch is not among the
sources.  The installed callback is invoked at a safepoint for an event only when the
event mask covers that event ("sets `eventMask` to cover call, return, and
instruction-count events, so the callback fires at the next safepoint"; with a cleared
mask "the callback remains installed but inert"). -/
def hookFires (L : lua_State) (eventMask : Nat) : Bool :=
  (L.hookmask &&& eventMask) != 0

/-! ## `toCString` and `PinnedString` -/

/-- The CLR class `Encoding`, reduced to the one method the bridge calls on it. -/
structure Encoding where
  GetBytes : String → List Nat

/-- The class `PinnedString` of `PinnedString.hpp`: either an unallocated handle
(constructed from `nullptr`) or a pinned byte array. -/
inductive PinnedString where
  | unallocated
  | pinned (cs : List Nat)
deriving DecidableEq, Repr

/-- The conversion `operator char*` of `PinnedString`, as a C string consumer sees it:
`none` is the `NULL` pointer; otherwise the bytes from the start of the pinned array up
to, not including, the first zero byte. -/
def PinnedString.toCharPtr : PinnedString → Option (List Nat)
  | .unallocated => none
  | .pinned cs => some (cs.takeWhile (fun b => b != 0))

/-- The CLR exception thrown when a method is called on a null handle. -/
inductive CLRException where
  | NullReferenceException
deriving DecidableEq, Repr

/-- `toCString` of `Wrapper.cpp`: `nullptr` for a null string; otherwise the encoded
bytes with the array resized by one element, which the runtime zero-fills.
`e->GetBytes(s)` on a null `e` throws. -/
def toCString (s : Option String) (e : Option Encoding) : Except CLRException PinnedString :=
  match s with
  | none => .ok .unallocated
  | some str =>
    match e with
    | none => .error .NullReferenceException
    | some enc => .ok (.pinned (enc.GetBytes str ++ [0]))

/-! ## `LuaInterjector` -/

/-- The fields of `LuaInterjector`.  `α` is the type of the queued delegates
(`Interjection^`); the `ConcurrentQueue` is the list of its elements, head first; `L` is
the interpreter state the handle `L` points to; `hookDelegate` is the function pointer the
runtime hands out for the delegate bound to `LuaInterjector::hook`. -/
structure LuaInterjector (α : Type) where
  message : Option String
  messageEncoding : Option Encoding
  cancelled : Bool
  interjections : List α
  L : lua_State
  hookDelegate : lua_Hook

/-- The constructor `LuaInterjector( LuaStatePtr L )`; `messageEncoding` is not in the
initialiser list and is therefore null. -/
def LuaInterjector.new {α : Type} (L : lua_State) (hookDelegate : lua_Hook) : LuaInterjector α :=
  { message := none
    messageEncoding := none
    cancelled := false
    interjections := []
    L := L
    hookDelegate := hookDelegate }

/-- `LuaInterjector::Cancel`. -/
def LuaInterjector.Cancel {α : Type} (s : LuaInterjector α) (message : Option String)
    (messageEncoding : Option Encoding) : LuaInterjector α :=
  { s with
    message := message
    messageEncoding := messageEncoding
    cancelled := true
    L := (luaW_enablehook s.L).1 }

/-- `LuaInterjector::RevertCancel`. -/
def LuaInterjector.RevertCancel {α : Type} (s : LuaInterjector α) : LuaInterjector α :=
  { s with message := none, cancelled := false }

/-- `LuaInterjector::Interject`: `Enqueue` adds at the tail of the queue. -/
def LuaInterjector.Interject {α : Type} (s : LuaInterjector α) (interjection : α) :
    LuaInterjector α :=
  { s with
    interjections := s.interjections ++ [interjection]
    L := (luaW_enablehook s.L).1 }

/-- A call an invoked delegate can make on the interjector it was queued on: the public
methods of `LuaInterjector`. -/
inductive Call (α : Type) where
  | Interject (interjection : α)
  | Cancel (message : Option String) (messageEncoding : Option Encoding)
  | RevertCancel

/-- The effect of one call on the interjector. -/
def Call.apply {α : Type} (s : LuaInterjector α) : Call α → LuaInterjector α
  | .Interject a => s.Interject a
  | .Cancel m e => s.Cancel m e
  | .RevertCancel => s.RevertCancel

/-- The delegates a list of calls enqueues through `Interject`, in order. -/
def Call.enqueued {α : Type} : List (Call α) → List α
  | [] => []
  | .Interject a :: cs => a :: Call.enqueued cs
  | _ :: cs => Call.enqueued cs

/-- Whether a call is a call of `Cancel`. -/
def Call.isCancel {α : Type} : Call α → Bool
  | .Cancel _ _ => true
  | _ => false

/-- What one invocation `interjection(this->L)` does to the interjector: the calls it
makes on it, in order, and the error it raises afterwards, if any. -/
structure Effect (α : Type) where
  calls : List (Call α)
  error : Option String

/-- The behaviour of the delegates: the effect of invoking a delegate in a given state. -/
abbrev Behaviour (α : Type) := α → LuaInterjector α → Effect α

/-- How control leaves `LuaInterjector::hook`. -/
inductive HookExit where
  /-- The handler ran to its end. -/
  | returned
  /-- The cancellation branch: `::luaL_error(L, fmt)` was called with this C string
  (`none` for `NULL`); `luaL_error` does not return. -/
  | luaL_error (fmt : Option (List Nat))
  /-- The cancellation branch: `toCString` threw before `luaL_error` was reached. -/
  | threw (ex : CLRException)
  /-- A delegate invoked by the drain loop raised this error. -/
  | interjectionError (err : String)
deriving DecidableEq, Repr

/-- One run of `LuaInterjector::hook`: how it ended, the delegates it invoked, in order,
the delegates that the invoked delegates enqueued through `Interject` meanwhile, in
order, and the interjector afterwards. -/
structure HookRun (α : Type) where
  exit : HookExit
  invoked : List α
  enqueued : List α
  state : LuaInterjector α

/-- The loop `while (interjections->TryDequeue(interjection)) interjection(this->L);`.
Every evaluation of the loop condition uses one unit of fuel; `none` means the fuel ran
out before the loop ended. -/
def drain {α : Type} (beh : Behaviour α) : Nat → LuaInterjector α → Option (HookRun α)
  | 0, _ => none
  | fuel + 1, s =>
    match s.interjections with
    | [] => some { exit := .returned, invoked := [], enqueued := [], state := s }
    | a :: rest =>
      let s1 := { s with interjections := rest }
      let eff := beh a s1
      let s2 := eff.calls.foldl Call.apply s1
      match eff.error with
      | some err =>
        some { exit := .interjectionError err, invoked := [a],
               enqueued := Call.enqueued eff.calls, state := s2 }
      | none =>
        (drain beh fuel s2).map fun r =>
          { r with invoked := a :: r.invoked,
                   enqueued := Call.enqueued eff.calls ++ r.enqueued }

/-- `LuaInterjector::hook`. -/
def LuaInterjector.hook {α : Type} (beh : Behaviour α) (fuel : Nat) (s : LuaInterjector α) :
    Option (HookRun α) :=
  if s.cancelled then
    match toCString s.message s.messageEncoding with
    | .error ex => some { exit := .threw ex, invoked := [], enqueued := [], state := s }
    | .ok p =>
      some { exit := .luaL_error p.toCharPtr, invoked := [], enqueued := [], state := s }
  else
    drain beh fuel { s with L := (luaW_disablehook s.L).1 }

/-- `LuaHelper::luaH_setnewinterjectionhook`: the new interjector, whose interpreter has
the hook preset to the interjector's delegate. -/
def luaH_setnewinterjectionhook {α : Type} (L : lua_State) (hookDelegate : lua_Hook) :
    LuaInterjector α :=
  let interjector : LuaInterjector α := LuaInterjector.new L hookDelegate
  { interjector with L := (luaW_presethook interjector.L interjector.hookDelegate).1 }

/-- A delegate behaviour in which no invocation raises an error or calls back into the
interjector. -/
def Behaviour.Plain {α : Type} (beh : Behaviour α) : Prop :=
  ∀ a s, (beh a s).calls = [] ∧ (beh a s).error = none

/-- A delegate behaviour in which no invocation raises an error. -/
def Behaviour.NeverFails {α : Type} (beh : Behaviour α) : Prop :=
  ∀ a s, (beh a s).error = none

/-- A delegate behaviour in which no invocation calls `Cancel`. -/
def Behaviour.NeverCancels {α : Type} (beh : Behaviour α) : Prop :=
  ∀ a s, ∀ c ∈ (beh a s).calls, c.isCancel = false

/-- The interjector after the successive calls `Interject(a)` for the `a` of a list. -/
def LuaInterjector.interjectAll {α : Type} (s : LuaInterjector α) (as : List α) :
    LuaInterjector α :=
  as.foldl LuaInterjector.Interject s

/-- An event in the life of an interjector: a thread calls one of its public methods, or
the interpreter reaches a safepoint and runs the hook handler. -/
inductive Event (α : Type) where
  | call (c : Call α)
  | hook

/-- The delegates a list of events enqueues through `Interject`, in order. -/
def Event.enqueued {α : Type} : List (Event α) → List α
  | [] => []
  | .call (.Interject a) :: es => a :: Event.enqueued es
  | _ :: es => Event.enqueued es

/-- Whether an event is a call of `Interject` or of `Cancel`, the two methods that arm
the hook. -/
def Event.arms {α : Type} : Event α → Bool
  | .call (.Interject _) => true
  | .call (.Cancel _ _) => true
  | _ => false

/-- Whether an event is a call of `Interject` or a handler run. -/
def Event.interjectOrHook {α : Type} : Event α → Bool
  | .call (.Interject _) => true
  | .hook => true
  | _ => false

/-- An interjector together with the delegates its handler runs have invoked so far and
the delegates enqueued so far, by callers and by invoked delegates alike. -/
structure History (α : Type) where
  state : LuaInterjector α
  invoked : List α
  enqueued : List α

/-- The history that starts at an interjector. -/
def History.start {α : Type} (s : LuaInterjector α) : History α :=
  { state := s, invoked := [], enqueued := [] }

/-- One event: a call changes the interjector, a handler run changes it and adds the
delegates it invoked to the history; both add what they enqueue.  `none` when the
handler run is out of fuel. -/
def History.step {α : Type} (beh : Behaviour α) (fuel : Nat) (h : History α) :
    Event α → Option (History α)
  | .call c =>
    some { h with state := c.apply h.state, enqueued := h.enqueued ++ Call.enqueued [c] }
  | .hook =>
    (h.state.hook beh fuel).map fun r =>
      { state := r.state, invoked := h.invoked ++ r.invoked,
        enqueued := h.enqueued ++ r.enqueued }

/-- A list of events, one after the other. -/
def History.run {α : Type} (beh : Behaviour α) (fuel : Nat) :
    History α → List (Event α) → Option (History α)
  | h, [] => some h
  | h, e :: es => (h.step beh fuel e).bind fun h1 => History.run beh fuel h1 es

/-! ## `LuaAllocTracker` -/

/-- Reduction of an integer to a `size_t` of `w` bits. -/
def size_t (w : Nat) (z : Int) : Nat := (z % (2 ^ w : Int)).toNat

/-- The class `LuaAllocTracker`: the `size_t` that `_allocated` points to. -/
structure LuaAllocTracker where
  _allocated : Nat
deriving DecidableEq, Repr

/-- The constructor `LuaAllocTracker()`. -/
def LuaAllocTracker.new : LuaAllocTracker := { _allocated := 0 }

/-- The property `LuaAllocTracker::Allocated`. -/
def LuaAllocTracker.Allocated (t : LuaAllocTracker) : Nat := t._allocated

/-- The C heap: the live blocks, each with its address and its size. -/
structure Heap where
  blocks : List (Nat × Nat)
deriving DecidableEq, Repr

/-- The total size of the live blocks. -/
def Heap.liveBytes (h : Heap) : Nat := (h.blocks.map Prod.snd).sum

/-- The C library's `free(ptr)`: the block at `ptr` is no longer live; `free(NULL)` does
nothing. -/
def free (h : Heap) (ptr : Nat) : Heap :=
  if ptr = 0 then h else { blocks := h.blocks.filter fun b => b.1 != ptr }

/-- The C library's `realloc(ptr, nsize)` for a non-zero `nsize`.  `answer` is the
library's decision: `none` when it cannot satisfy the request (it returns `NULL` and the
block at `ptr` stays as it was), `some q` when it can (the block at `ptr`, if any, is gone
and a block of `nsize` bytes lives at `q`, which is returned). -/
def realloc (h : Heap) (answer : Option Nat) (ptr nsize : Nat) : Heap × Nat :=
  match answer with
  | none => (h, 0)
  | some q => ({ blocks := (q, nsize) :: h.blocks.filter fun b => b.1 != ptr }, q)

/-- What `LuaAllocTracker_alloc` reads and writes: the tracker `ud` points to and the heap. -/
structure AllocState where
  ud : LuaAllocTracker
  heap : Heap
deriving DecidableEq, Repr

/-- `LuaAllocTracker_alloc` of `Wrapper.cpp`, on a platform whose `size_t` has `w` bits;
`answer` is what the library's `realloc` decides, should it be called. -/
def LuaAllocTracker_alloc (w : Nat) (answer : Option Nat) (st : AllocState)
    (ptr osize nsize : Nat) : AllocState × Nat :=
  let ud : LuaAllocTracker :=
    if ptr = 0 then
      { _allocated := size_t w (st.ud._allocated + nsize) }
    else
      { _allocated := size_t w (st.ud._allocated + size_t w ((nsize : Int) - osize)) }
  if nsize = 0 then
    ({ ud := ud, heap := free st.heap ptr }, 0)
  else
    let r := realloc st.heap answer ptr nsize
    ({ ud := ud, heap := r.1 }, r.2)

/-- The arguments of one call of `LuaAllocTracker_alloc`, with the answer of `realloc`. -/
structure AllocCall where
  answer : Option Nat
  ptr : Nat
  osize : Nat
  nsize : Nat
deriving DecidableEq, Repr

/-- A sequence of calls of `LuaAllocTracker_alloc`, one after the other. -/
def allocAll (w : Nat) (st : AllocState) (calls : List AllocCall) : AllocState :=
  calls.foldl (fun st c => (LuaAllocTracker_alloc w c.answer st c.ptr c.osize c.nsize).1) st

/-- The addresses of the live blocks. -/
def Heap.addresses (h : Heap) : List Nat := h.blocks.map Prod.fst

/-- A heap as the C library keeps it: no block at `NULL` and no two blocks at one
address. -/
def Heap.WellFormed (h : Heap) : Prop := 0 ∉ h.addresses ∧ h.addresses.Nodup

/-- A call that keeps to the allocator protocol on heap `h` and is served: a non-null
`ptr` is the address of a live block whose size is `osize`, and `realloc`, when it is
called, answers with an address that is not null and not that of another live block. -/
def AllocCall.Served (c : AllocCall) (h : Heap) : Prop :=
  (c.ptr ≠ 0 → (c.ptr, c.osize) ∈ h.blocks) ∧
  (c.nsize ≠ 0 → ∃ q, c.answer = some q ∧ q ≠ 0 ∧ (q = c.ptr ∨ q ∉ h.addresses))

/-- Every call of a sequence is served in the state it is made in. -/
def allServed (w : Nat) : AllocState → List AllocCall → Prop
  | _, [] => True
  | st, c :: cs =>
    c.Served st.heap ∧
      allServed w (LuaAllocTracker_alloc w c.answer st c.ptr c.osize c.nsize).1 cs

/-- The state `luaH_newstate` starts from: a new tracker and nothing allocated. -/
def AllocState.fresh : AllocState := { ud := LuaAllocTracker.new, heap := { blocks := [] } }

/-! ## The drain loop, round by round -/

/-- The drain loop after some rounds: whether and how it has ended (`none` while it is
still running), the delegates invoked and those enqueued by them so far, in order, and
the interjector. -/
structure Rounds (α : Type) where
  ended : Option HookExit
  invoked : List α
  enqueued : List α
  state : LuaInterjector α

/-- The first `k` rounds of the loop `while (interjections->TryDequeue(interjection))
interjection(this->L);`, or all its rounds when it ends earlier.  One round is one
evaluation of the loop condition followed, when a delegate was dequeued, by its
invocation. -/
def rounds {α : Type} (beh : Behaviour α) : Nat → LuaInterjector α → Rounds α
  | 0, s => { ended := none, invoked := [], enqueued := [], state := s }
  | k + 1, s =>
    match s.interjections with
    | [] => { ended := some .returned, invoked := [], enqueued := [], state := s }
    | a :: rest =>
      let s1 := { s with interjections := rest }
      let eff := beh a s1
      let s2 := eff.calls.foldl Call.apply s1
      match eff.error with
      | some err =>
        { ended := some (.interjectionError err), invoked := [a],
          enqueued := Call.enqueued eff.calls, state := s2 }
      | none =>
        let r := rounds beh k s2
        { r with invoked := a :: r.invoked,
                 enqueued := Call.enqueued eff.calls ++ r.enqueued }

/-! ## `luaL_dofile`, `luaL_dostring` and `lua_upvalueindex` -/

/-- Modelled from the spec: `lua.h` is not among the sources; the status `LUA_OK` of a
load or a protected call that succeeded is 0. -/
def LUA_OK : Int := 0

/-- Modelled from the spec: `lua.h` is not among the sources; `LUA_MULTRET`, the option
for multiple returns in `lua_pcall`, is -1. -/
def LUA_MULTRET : Int := -1

/-- The functions of the interpreter library that the wrappers below call.  `σ` is the
state of the interpreter; each function gives the state it leaves and the `int` it
returns.  A C string argument is `none` for `NULL`. -/
structure NativeLua (σ : Type) where
  luaL_loadfilex : σ → Option (List Nat) → Option (List Nat) → σ × Int
  luaL_loadstring : σ → Option (List Nat) → σ × Int
  lua_pcallk : σ → Int → Int → Int → Int → Nat → σ × Int

/-- `LuaWrapper::lua_pcall`; the continuation is `NULL`.  A `LuaStatus` is the `int` it
was cast from. -/
def lua_pcall {σ : Type} (api : NativeLua σ) (L : σ) (n r f : Int) : σ × Int :=
  api.lua_pcallk L n r f 0 0

/-- `LuaWrapper::luaL_loadfile`; `Default` is the CLR's `Encoding::Default`. -/
def luaL_loadfile {σ : Type} (api : NativeLua σ) (Default : Encoding) (L : σ)
    (f : Option String) : Except CLRException (σ × Int) :=
  match toCString f (some Default) with
  | .error ex => .error ex
  | .ok p => .ok (api.luaL_loadfilex L p.toCharPtr none)

/-- `LuaWrapper::luaL_loadstring`. -/
def luaL_loadstring {σ : Type} (api : NativeLua σ) (L : σ) (s : Option String)
    (chunkEncoding : Option Encoding) : Except CLRException (σ × Int) :=
  match toCString s chunkEncoding with
  | .error ex => .error ex
  | .ok p => .ok (api.luaL_loadstring L p.toCharPtr)

/-- `LuaWrapper::luaL_dofile`; the right operand of `||` is evaluated only when the left
one is false. -/
def luaL_dofile {σ : Type} (api : NativeLua σ) (Default : Encoding) (L : σ)
    (fn : Option String) : Except CLRException (σ × Bool) :=
  match luaL_loadfile api Default L fn with
  | .error ex => .error ex
  | .ok (L1, status) =>
    if status != LUA_OK then .ok (L1, true)
    else
      let called := lua_pcall api L1 0 LUA_MULTRET 0
      .ok (called.1, called.2 != LUA_OK)

/-- `LuaWrapper::luaL_dostring`; the right operand of `||` is evaluated only when the
left one is false. -/
def luaL_dostring {σ : Type} (api : NativeLua σ) (L : σ) (s : Option String)
    (chunkEncoding : Option Encoding) : Except CLRException (σ × Bool) :=
  match luaL_loadstring api L s chunkEncoding with
  | .error ex => .error ex
  | .ok (L1, status) =>
    if status != LUA_OK then .ok (L1, true)
    else
      let called := lua_pcall api L1 0 LUA_MULTRET 0
      .ok (called.1, called.2 != LUA_OK)

/-- Reduction of an integer to a C `int`: 32 bits, two's complement. -/
def int32 (z : Int) : Int := (z + 2 ^ 31) % 2 ^ 32 - 2 ^ 31

/-- `LuaWrapper::lua_upvalueindex`.  The constant `LUA_REGISTRYINDEX` comes from the
interpreter headers, which are not among the sources, and is a parameter here. -/
def lua_upvalueindex (LUA_REGISTRYINDEX : Int) (i : Int) : Int :=
  int32 (LUA_REGISTRYINDEX - i)

/-! ## Host threads and the interpreter thread, interleaved -/

/-- The first statement of `LuaInterjector::Interject`:
`interjections->Enqueue(interjection)`. -/
def LuaInterjector.Enqueue {α : Type} (s : LuaInterjector α) (interjection : α) :
    LuaInterjector α :=
  { s with interjections := s.interjections ++ [interjection] }

/-- The second statement of `LuaInterjector::Interject`:
`LuaWrapper::luaW_enablehook(L)`. -/
def LuaInterjector.enablehook {α : Type} (s : LuaInterjector α) : LuaInterjector α :=
  { s with L := (luaW_enablehook s.L).1 }

/-- How far a host thread is in its call `Interject(a)`: it has called, it has enqueued
and not yet armed the hook, or it has returned. -/
inductive HostPc where
  | called
  | enqueued
  | returned
deriving DecidableEq, Repr

/-- Where the interpreter thread is: in the script, outside the handler; in
`LuaInterjector::hook`, before its test of `cancelled`; or in the handler's loop, at the
loop condition. -/
inductive InterpreterPc where
  | script
  | entered
  | draining
deriving DecidableEq, Repr

/-- One interjector shared by host threads, each in a call `Interject(a)` of its own, and
by the interpreter thread; `invoked` lists the delegates the handler has invoked. -/
structure Threads (α : Type) where
  interjector : LuaInterjector α
  hosts : List (α × HostPc)
  interpreter : InterpreterPc
  invoked : List α

/-- A thread: the host thread of a given number, or the interpreter thread. -/
inductive Thread where
  | host (i : Nat)
  | interpreter
deriving DecidableEq, Repr

/-- Whether the event mask covers the events the interjector arms the hook for. -/
def armed (L : lua_State) : Bool :=
  hookFires L (LUA_MASKCALL ||| LUA_MASKRET ||| LUA_MASKCOUNT)

/-- The next step of a thread, `none` when it has none.  A host thread runs the two
statements of `Interject` one at a time.  The interpreter thread enters the handler at a
safepoint when the hook is armed; in the handler it tests `cancelled` and either raises
the cancellation error or calls `luaW_disablehook`; then every round of the loop is a
`TryDequeue` that ends the loop or yields a delegate, which is invoked.  The delegates
work on the interpreter only: they do not fail and do not call the interjector. -/
def Threads.step {α : Type} (σ : Threads α) : Thread → Option (Threads α)
  | .host i =>
    match σ.hosts[i]? with
    | some (a, .called) =>
      some { σ with interjector := σ.interjector.Enqueue a,
                    hosts := σ.hosts.set i (a, .enqueued) }
    | some (a, .enqueued) =>
      some { σ with interjector := σ.interjector.enablehook,
                    hosts := σ.hosts.set i (a, .returned) }
    | _ => none
  | .interpreter =>
    match σ.interpreter with
    | .script => if armed σ.interjector.L then some { σ with interpreter := .entered } else none
    | .entered =>
      if σ.interjector.cancelled then some { σ with interpreter := .script }
      else
        some { σ with
          interjector := { σ.interjector with L := (luaW_disablehook σ.interjector.L).1 },
          interpreter := .draining }
    | .draining =>
      match σ.interjector.interjections with
      | [] => some { σ with interpreter := .script }
      | a :: rest =>
        some { σ with interjector := { σ.interjector with interjections := rest },
                      invoked := σ.invoked ++ [a] }

/-- An interleaving: the threads named take one step each, in this order; `none` when a
thread named has no step to take. -/
def Threads.exec {α : Type} : Threads α → List Thread → Option (Threads α)
  | σ, [] => some σ
  | σ, t :: ts => (σ.step t).bind fun σ1 => Threads.exec σ1 ts

/-- No thread has a step to take: every host thread has returned and the interpreter
runs the script with the hook disarmed. -/
def Threads.quiescent {α : Type} (σ : Threads α) : Bool :=
  σ.hosts.all (fun h => h.2 == .returned) && σ.interpreter == .script
    && !armed σ.interjector.L

/-- A new interjector and host threads that have just called `Interject`, one for each
of the given delegates. -/
def Threads.start {α : Type} (L : lua_State) (hookDelegate : lua_Hook) (actions : List α) :
    Threads α :=
  { interjector := luaH_setnewinterjectionhook L hookDelegate
    hosts := actions.map fun a => (a, HostPc.called)
    interpreter := .script
    invoked := [] }

/-- The delegates of the host threads that have not enqueued yet. -/
def Threads.waiting {α : Type} (σ : Threads α) : List α :=
  (σ.hosts.filter fun h => h.2 == .called).map Prod.fst

/-- The share of a host thread in the bound `Threads.stepsLeft`. -/
def HostPc.weight : HostPc → Nat
  | .called => 6
  | .enqueued => 4
  | .returned => 0

/-- The share of the interpreter thread's place in the bound `Threads.stepsLeft`. -/
def InterpreterPc.weight : InterpreterPc → Nat
  | .entered => 0
  | .script => 1
  | .draining => 2

/-- A bound on the number of steps the threads can still take: 6 for a host thread that
has called, 4 for one that has enqueued, 1 for each queued delegate, 3 for an armed
hook, and 0, 1 or 2 for the place of the interpreter thread. -/
def Threads.stepsLeft {α : Type} (σ : Threads α) : Nat :=
  (σ.hosts.map fun h => h.2.weight).sum
    + σ.interjector.interjections.length
    + (if armed σ.interjector.L then 3 else 0)
    + σ.interpreter.weight

/-- What holds of the threads throughout every interleaving that starts with the host
threads of `actions`: the delegates invoked, queued and not yet enqueued are together the
delegates `actions`; no cancellation is active; the handler is entered with the hook
armed; and while the interpreter is in the script with delegates queued, the hook is
armed or some host thread is about to arm it. -/
def Threads.Inv {α : Type} (actions : List α) (σ : Threads α) : Prop :=
  (σ.invoked ++ σ.interjector.interjections ++ σ.waiting).Perm actions ∧
  σ.interjector.cancelled = false ∧
  (σ.interpreter = .entered → armed σ.interjector.L = true) ∧
  (σ.interjector.interjections ≠ [] → σ.interpreter = .script →
    armed σ.interjector.L = true ∨ ∃ h ∈ σ.hosts, h.2 = HostPc.enqueued)

/-! ## Sample inputs -/

/-- An interpreter state in the middle of a Lua function, with a line-and-count hook of
some earlier debugger still installed. -/
def sampleState : lua_State :=
  { ci := { isLua := true, savedpc := 7 }
    oldpc := 3
    hook := 99
    basehookcount := 5
    hookcount := 2
    hookmask := 12 }

/-- Delegates that only work on the interpreter's value stack: they make no call on the
interjector and raise no error. -/
def inertBehaviour : Behaviour Nat := fun _ _ => { calls := [], error := none }

/-- The CLR's `Encoding::ASCII`: one byte for each UTF-16 code unit of the string, `?`
for a code unit outside ASCII. -/
def Encoding.ASCII : Encoding :=
  { GetBytes := fun s =>
      s.toList.flatMap fun c =>
        if c.toNat < 128 then [c.toNat] else if c.toNat < 65536 then [63] else [63, 63] }

/-- Delegates of three kinds: delegate 1 calls `Interject(5)` and returns, delegate 2
raises an error, and every other delegate only works on the interpreter's value stack. -/
def mixedBehaviour : Behaviour Nat := fun a _ =>
  if a = 1 then { calls := [.Interject 5], error := none }
  else if a = 2 then { calls := [], error := some "boom" }
  else { calls := [], error := none }

/-- Delegates that never fail: delegate 1 calls `Interject(5)` and returns, and every
other delegate only works on the interpreter's value stack. -/
def relayBehaviour : Behaviour Nat := fun a _ =>
  if a = 1 then { calls := [.Interject 5], error := none }
  else { calls := [], error := none }

/-- Delegates that never fail and never let the queue run empty: every delegate calls
`Interject` with itself and returns. -/
def loopBehaviour : Behaviour Nat := fun a _ =>
  { calls := [.Interject a], error := none }

/-- A stand-in for the interpreter library whose state is the list of the native
functions called so far; a load answers `loadStatus`, a protected call `callStatus`. -/
def recordingLua (loadStatus callStatus : Int) : NativeLua (List String) :=
  { luaL_loadfilex := fun L _ _ => (L ++ ["luaL_loadfilex"], loadStatus)
    luaL_loadstring := fun L _ => (L ++ ["luaL_loadstring"], loadStatus)
    lua_pcallk := fun L _ _ _ _ _ => (L ++ ["lua_pcallk"], callStatus) }

/-! ## Lemmas on the queue and the drain loop -/

section DrainLemmas

variable {α : Type}

theorem Call.foldl_apply_interjections (calls : List (Call α)) (s : LuaInterjector α) :
    (calls.foldl Call.apply s).interjections = s.interjections ++ Call.enqueued calls := by
  induction calls generalizing s with
  | nil => simp [Call.enqueued]
  | cons c cs ih =>
    rw [List.foldl_cons, ih]
    cases c <;>
      simp [Call.apply, Call.enqueued, LuaInterjector.Interject, LuaInterjector.Cancel,
        LuaInterjector.RevertCancel]

theorem Call.foldl_apply_cancelled (calls : List (Call α)) (s : LuaInterjector α)
    (hcalls : ∀ c ∈ calls, c.isCancel = false) (hs : s.cancelled = false) :
    (calls.foldl Call.apply s).cancelled = false := by
  induction calls generalizing s with
  | nil => simpa using hs
  | cons c cs ih =>
    rw [List.foldl_cons]
    apply ih _ (fun d hd => hcalls d (List.mem_cons_of_mem _ hd))
    have hc := hcalls c (List.mem_cons_self _ _)
    cases c with
    | Interject a => simpa [Call.apply, LuaInterjector.Interject] using hs
    | Cancel m e => simp [Call.isCancel] at hc
    | RevertCancel => simp [Call.apply, LuaInterjector.RevertCancel]

/-- Conservation of the queue: after a drain, the delegates invoked followed by those
still queued are the delegates queued at the start followed by those the invoked
delegates enqueued. -/
theorem drain_conservation (beh : Behaviour α) (fuel : Nat) (s : LuaInterjector α)
    (r : HookRun α) (h : drain beh fuel s = some r) :
    r.invoked ++ r.state.interjections = s.interjections ++ r.enqueued := by
  induction fuel generalizing s r with
  | zero => simp [drain] at h
  | succ n ih =>
    unfold drain at h
    cases hq : s.interjections with
    | nil =>
      rw [hq] at h
      simp only [Option.some.injEq] at h
      subst h
      simp [hq]
    | cons a rest =>
      rw [hq] at h
      simp only at h
      have hextra :=
        Call.foldl_apply_interjections (beh a { s with interjections := rest }).calls
          { s with interjections := rest }
      cases he : (beh a { s with interjections := rest }).error with
      | some err =>
        rw [he] at h
        simp only [Option.some.injEq] at h
        subst h
        simpa using hextra
      | none =>
        rw [he] at h
        simp only [Option.map_eq_some'] at h
        obtain ⟨r1, hr1, rfl⟩ := h
        have hlater := ih _ r1 hr1
        simp only [List.cons_append]
        rw [hlater, hextra]
        simp

/-- When no delegate raises an error, a drain that ends returns normally with the queue
empty. -/
theorem drain_returned (beh : Behaviour α) (hbeh : beh.NeverFails)
    (fuel : Nat) (s : LuaInterjector α) (r : HookRun α) (h : drain beh fuel s = some r) :
    r.exit = .returned ∧ r.state.interjections = [] := by
  induction fuel generalizing s r with
  | zero => simp [drain] at h
  | succ n ih =>
    unfold drain at h
    cases hq : s.interjections with
    | nil =>
      rw [hq] at h
      simp only [Option.some.injEq] at h
      subst h
      exact ⟨rfl, hq⟩
    | cons a rest =>
      rw [hq] at h
      simp only [hbeh _ _, Option.map_eq_some'] at h
      obtain ⟨r1, hr1, rfl⟩ := h
      exact ih _ r1 hr1

/-- When no delegate calls `Cancel`, a drain leaves cancellation inactive. -/
theorem drain_not_cancelled (beh : Behaviour α) (hbeh : beh.NeverCancels)
    (fuel : Nat) (s : LuaInterjector α) (hs : s.cancelled = false) (r : HookRun α)
    (h : drain beh fuel s = some r) : r.state.cancelled = false := by
  induction fuel generalizing s r with
  | zero => simp [drain] at h
  | succ n ih =>
    unfold drain at h
    cases hq : s.interjections with
    | nil =>
      rw [hq] at h
      simp only [Option.some.injEq] at h
      subst h
      exact hs
    | cons a rest =>
      rw [hq] at h
      simp only at h
      have hc2 := Call.foldl_apply_cancelled (beh a { s with interjections := rest }).calls
        { s with interjections := rest } (hbeh a _) hs
      cases he : (beh a { s with interjections := rest }).error with
      | some err =>
        rw [he] at h
        simp only [Option.some.injEq] at h
        subst h
        exact hc2
      | none =>
        rw [he] at h
        simp only [Option.map_eq_some'] at h
        obtain ⟨r1, hr1, rfl⟩ := h
        exact ih _ hc2 r1 hr1

/-- With plain delegates, a drain with more fuel than queued delegates invokes the whole
queue in order, returns, and changes nothing but the queue, which it leaves empty. -/
theorem drain_plain (beh : Behaviour α) (hbeh : beh.Plain) (fuel : Nat)
    (s : LuaInterjector α) (hfuel : s.interjections.length < fuel) :
    drain beh fuel s =
      some { exit := .returned, invoked := s.interjections, enqueued := [],
             state := { s with interjections := [] } } := by
  induction fuel generalizing s with
  | zero => omega
  | succ n ih =>
    unfold drain
    cases hq : s.interjections with
    | nil => simp [← hq]
    | cons a rest =>
      simp only [(hbeh a _).1, (hbeh a _).2, List.foldl_nil]
      have hlen : ({ s with interjections := rest } : LuaInterjector α).interjections.length < n := by
        simp only [hq, List.length_cons] at hfuel
        simpa using by omega
      rw [ih _ hlen]
      simp [Call.enqueued]

theorem Behaviour.Plain.neverFails {beh : Behaviour α} (hbeh : beh.Plain) : beh.NeverFails :=
  fun a s => (hbeh a s).2

theorem Behaviour.Plain.neverCancels {beh : Behaviour α} (hbeh : beh.Plain) :
    beh.NeverCancels := by
  intro a s c hc
  rw [(hbeh a s).1] at hc
  simp at hc

/-- Conservation of the queue over one handler run. -/
theorem hook_conservation (beh : Behaviour α) (fuel : Nat) (s : LuaInterjector α)
    (r : HookRun α) (h : s.hook beh fuel = some r) :
    r.invoked ++ r.state.interjections = s.interjections ++ r.enqueued := by
  unfold LuaInterjector.hook at h
  split at h
  · split at h <;> (simp only [Option.some.injEq] at h; subst h; simp)
  · simpa using drain_conservation beh fuel _ r h

theorem interjectAll_interjections (s : LuaInterjector α) (as : List α) :
    (s.interjectAll as).interjections = s.interjections ++ as := by
  induction as generalizing s with
  | nil => simp [LuaInterjector.interjectAll]
  | cons a as ih =>
    have := ih (s.Interject a)
    simp only [LuaInterjector.interjectAll, List.foldl_cons] at this ⊢
    rw [this]
    simp [LuaInterjector.Interject]

theorem interjectAll_cancelled (s : LuaInterjector α) (as : List α) :
    (s.interjectAll as).cancelled = s.cancelled := by
  induction as generalizing s with
  | nil => simp [LuaInterjector.interjectAll]
  | cons a as ih =>
    have := ih (s.Interject a)
    simp only [LuaInterjector.interjectAll, List.foldl_cons] at this ⊢
    rw [this]
    simp [LuaInterjector.Interject]

theorem History.run_append (beh : Behaviour α) (fuel : Nat)
    (es1 es2 : List (Event α)) (h0 : History α) :
    History.run beh fuel h0 (es1 ++ es2)
      = (History.run beh fuel h0 es1).bind fun h1 => History.run beh fuel h1 es2 := by
  induction es1 generalizing h0 with
  | nil => simp [History.run]
  | cons e es ih =>
    simp only [List.cons_append, History.run]
    cases h0.step beh fuel e with
    | none => rfl
    | some h1 => simpa using ih h1

/-- Conservation of the queue over a list of events, for every delegate behaviour: the
delegates invoked so far followed by those still queued are the delegates of the queue
`q0` followed by all those enqueued so far. -/
theorem History.run_conservation (beh : Behaviour α) (fuel : Nat) (q0 : List α)
    (es : List (Event α)) (h0 h : History α)
    (h0inv : h0.invoked ++ h0.state.interjections = q0 ++ h0.enqueued)
    (hrun : History.run beh fuel h0 es = some h) :
    h.invoked ++ h.state.interjections = q0 ++ h.enqueued := by
  induction es generalizing h0 with
  | nil =>
    simp only [History.run, Option.some.injEq] at hrun
    subst hrun
    exact h0inv
  | cons e es ih =>
    simp only [History.run, Option.bind_eq_some] at hrun
    obtain ⟨h1, hstep, hrest⟩ := hrun
    refine ih h1 ?_ hrest
    cases e with
    | call c =>
      simp only [History.step, Option.some.injEq] at hstep
      subst hstep
      have := Call.foldl_apply_interjections [c] h0.state
      simp only [List.foldl_cons, List.foldl_nil] at this
      simp only [this, ← List.append_assoc, h0inv]
    | hook =>
      simp only [History.step, Option.map_eq_some'] at hstep
      obtain ⟨r, hr, rfl⟩ := hstep
      have := hook_conservation beh fuel _ r hr
      simp only [List.append_assoc, this]
      simp only [← List.append_assoc, h0inv]

/-- With delegates that never call `Cancel`, `Interject` calls and handler runs leave
cancellation inactive. -/
theorem History.run_not_cancelled (beh : Behaviour α) (hbeh : beh.NeverCancels)
    (fuel : Nat) (es : List (Event α)) (hes : ∀ e ∈ es, e.interjectOrHook = true)
    (h0 h : History α) (hc : h0.state.cancelled = false)
    (hrun : History.run beh fuel h0 es = some h) : h.state.cancelled = false := by
  induction es generalizing h0 with
  | nil =>
    simp only [History.run, Option.some.injEq] at hrun
    subst hrun
    exact hc
  | cons e es ih =>
    simp only [History.run, Option.bind_eq_some] at hrun
    obtain ⟨h1, hstep, hrest⟩ := hrun
    refine ih (fun d hd => hes d (List.mem_cons_of_mem _ hd)) h1 ?_ hrest
    have he := hes e (List.mem_cons_self _ _)
    cases e with
    | call c =>
      simp only [History.step, Option.some.injEq] at hstep
      subst hstep
      cases c with
      | Interject a => simpa [Call.apply, LuaInterjector.Interject] using hc
      | Cancel m e => simp [Event.interjectOrHook] at he
      | RevertCancel => simp [Event.interjectOrHook] at he
    | hook =>
      simp only [History.step, Option.map_eq_some'] at hstep
      obtain ⟨r, hr, rfl⟩ := hstep
      unfold LuaInterjector.hook at hr
      simp only [hc, Bool.false_eq_true, if_false] at hr
      exact drain_not_cancelled beh hbeh fuel _ rfl r hr

end DrainLemmas

/-! ## The hook handler: cancellation, FIFO order -/

section CancelledLemmas

variable {α : Type}

/-- The C string of a zero-terminated buffer is that of the buffer before the
terminator. -/
theorem takeWhile_append_zero (l : List Nat) :
    (l ++ [0]).takeWhile (fun b => b != 0) = l.takeWhile (fun b => b != 0) := by
  induction l with
  | nil => simp
  | cons b bs ih => by_cases hb : b = 0 <;> simp [List.takeWhile_cons, hb, ih]

/-- The handler in a state with cancellation active: the run exists for every fuel,
invokes and enqueues nothing, returns the interjector as it was, and its exit is fixed by
the stored message and encoding. -/
theorem hook_cancelled_run (beh : Behaviour α) (fuel : Nat) (s : LuaInterjector α)
    (hc : s.cancelled = true) :
    ∃ r, s.hook beh fuel = some r ∧ r.invoked = [] ∧ r.enqueued = [] ∧ r.state = s ∧
      (∀ m e, s.message = some m → s.messageEncoding = some e →
        r.exit = .luaL_error (some ((e.GetBytes m).takeWhile fun b => b != 0))) ∧
      (s.message = none → r.exit = .luaL_error none) ∧
      (∀ m, s.message = some m → s.messageEncoding = none →
        r.exit = .threw .NullReferenceException) := by
  unfold LuaInterjector.hook
  rw [if_pos hc]
  cases hm : s.message with
  | none =>
    refine ⟨_, rfl, rfl, rfl, rfl, ?_, ?_, ?_⟩
    · intro m e h; simp at h
    · intro _; rfl
    · intro m h; simp at h
  | some m =>
    cases he : s.messageEncoding with
    | none =>
      refine ⟨_, rfl, rfl, rfl, rfl, ?_, ?_, ?_⟩
      · intro m1 e h1 h2; simp at h2
      · intro h; simp at h
      · intro m1 _ _; rfl
    | some e =>
      refine ⟨_, rfl, rfl, rfl, rfl, ?_, ?_, ?_⟩
      · intro m1 e1 h1 h2
        simp only [Option.some.injEq] at h1 h2
        subst h1 h2
        simp only [toCString, PinnedString.toCharPtr, takeWhile_append_zero]
      · intro h; simp at h
      · intro m1 _ h; simp at h

end CancelledLemmas

/-- C1, as stated, fails: a state with cancellation active in which the handler raises
no cancellation error.  After `Cancel("stop", nullptr)` on an interjector with two queued
delegates the flag is set, but the run ends in the `NullReferenceException` that
`toCString` throws at `e->GetBytes(s)`: `luaL_error` is not called with any argument.
(The two delegates are still not invoked and stay queued.) -/
theorem cancel_null_encoding_throws :
    (((LuaInterjector.new sampleState 1 : LuaInterjector Nat).interjectAll [10, 20]).Cancel
        (some "stop") none).cancelled = true ∧
    ((((LuaInterjector.new sampleState 1 : LuaInterjector Nat).interjectAll [10, 20]).Cancel
        (some "stop") none).hook inertBehaviour 3).map
      (fun r => (r.exit, r.invoked, r.state.interjections))
      = some (.threw .NullReferenceException, [], [10, 20]) ∧
    (∀ fmt,
      ((((LuaInterjector.new sampleState 1 : LuaInterjector Nat).interjectAll [10, 20]).Cancel
        (some "stop") none).hook inertBehaviour 3).map (fun r => r.exit)
      ≠ some (.luaL_error fmt)) := by
  refine ⟨by decide, by decide, ?_⟩
  intro fmt
  have h : ((((LuaInterjector.new sampleState 1 : LuaInterjector Nat).interjectAll
      [10, 20]).Cancel (some "stop") none).hook inertBehaviour 3).map (fun r => r.exit)
      = some (.threw .NullReferenceException) := by decide
  rw [h]
  simp

/-- C1, amended: cancellation takes precedence over draining.  In every interjector state
in which `cancelled` is set, whatever the queue holds, whatever the delegates would do
and whatever the fuel, one run of the hook handler ends in the cancellation branch: it
invokes no queued delegate, nothing is enqueued, the interjector, its queue included, is
left exactly as it was, the run does not return normally and no delegate raised an error.
How it ends is fixed by what `Cancel` stored: with a non-null message `m` and a non-null
encoding `e` it raises the cancellation error, calling `luaL_error` with the C string of
`e.GetBytes(m)` (its bytes before the first zero byte); with a null message it calls
`luaL_error` with `NULL`; with a non-null message and a null encoding `toCString` throws
`NullReferenceException` and `luaL_error` is not reached. -/
theorem hook_cancelled_precedes_drain {α : Type} (beh : Behaviour α) (fuel : Nat)
    (s : LuaInterjector α) (hc : s.cancelled = true) :
    ∃ r, s.hook beh fuel = some r ∧ r.invoked = [] ∧ r.enqueued = [] ∧ r.state = s ∧
      r.state.interjections = s.interjections ∧
      r.exit ≠ .returned ∧ (∀ err, r.exit ≠ .interjectionError err) ∧
      (∀ m e, s.message = some m → s.messageEncoding = some e →
        r.exit = .luaL_error (some ((e.GetBytes m).takeWhile fun b => b != 0))) ∧
      (s.message = none → r.exit = .luaL_error none) ∧
      (∀ m, s.message = some m → s.messageEncoding = none →
        r.exit = .threw .NullReferenceException ∧ ∀ fmt, r.exit ≠ .luaL_error fmt) := by
  obtain ⟨r, hr, hinv, henq, hst, h1, h2, h3⟩ := hook_cancelled_run beh fuel s hc
  have hexit : r.exit ≠ .returned ∧ ∀ err, r.exit ≠ .interjectionError err := by
    cases hm : s.message with
    | none => rw [h2 hm]; exact ⟨by simp, by simp⟩
    | some m =>
      cases he : s.messageEncoding with
      | none => rw [h3 m hm he]; exact ⟨by simp, by simp⟩
      | some e => rw [h1 m e hm he]; exact ⟨by simp, by simp⟩
  refine ⟨r, hr, hinv, henq, hst, by rw [hst], hexit.1, hexit.2, h1, h2, ?_⟩
  intro m hm he
  refine ⟨h3 m hm he, ?_⟩
  intro fmt
  rw [h3 m hm he]
  simp

/-- C1, amended, at a concrete input: with cancellation requested after two delegates
were queued, the handler raises `luaL_error` with the bytes of "stop", invokes nothing
and leaves both delegates queued. -/
theorem hook_cancelled_precedes_drain_witness :
    ((((LuaInterjector.new sampleState 1).interjectAll [10, 20]).Cancel (some "stop")
        (some Encoding.ASCII)).hook inertBehaviour 0).map
      (fun r => (r.exit, r.invoked, r.state.interjections))
      = some (.luaL_error (some [115, 116, 111, 112]), [], [10, 20]) := by
  obtain ⟨r, hr, hinv, -, hst, -, -, -, hexit, -⟩ :=
    hook_cancelled_precedes_drain inertBehaviour 0
      (((LuaInterjector.new sampleState 1).interjectAll [10, 20]).Cancel (some "stop")
        (some Encoding.ASCII)) rfl
  rw [hr, Option.map_some', hinv, hst, hexit "stop" Encoding.ASCII rfl rfl]
  decide

/-- C2: FIFO execution.  Let the delegates `as` be enqueued by successive `Interject`
calls on an interjector with no cancellation active, with no handler run in between.
(1) Whatever the delegates do (fail, enqueue, cancel), whenever the next handler run
ends, the delegates it invoked followed by those it left queued are the earlier queue,
then `as`, then the delegates enqueued during the run: delegates are invoked in enqueue
order and never out of turn.
(2) With delegates that neither fail nor call back into the interjector, a run with more
fuel than queued delegates returns having invoked exactly the earlier queue followed by
`as`, in that order.
(3) In particular, on an empty queue, `a1` enqueued before `a2` is invoked first. -/
theorem hook_invokes_in_enqueue_order {α : Type} (beh : Behaviour α)
    (s : LuaInterjector α) (as : List α) (hc : s.cancelled = false) :
    (∀ fuel r, (s.interjectAll as).hook beh fuel = some r →
        r.invoked ++ r.state.interjections = s.interjections ++ as ++ r.enqueued) ∧
    (beh.Plain → ∀ fuel, s.interjections.length + as.length < fuel →
        ∃ r, (s.interjectAll as).hook beh fuel = some r ∧ r.exit = .returned ∧
          r.invoked = s.interjections ++ as ∧ r.state.interjections = []) ∧
    (beh.Plain → s.interjections = [] → ∀ a1 a2, as = [a1, a2] → ∀ fuel, 2 < fuel →
        ∃ r, (s.interjectAll as).hook beh fuel = some r ∧ r.invoked = [a1, a2]) := by
  have hc2 : (s.interjectAll as).cancelled = false := by
    rw [interjectAll_cancelled, hc]
  have total : beh.Plain → ∀ fuel, s.interjections.length + as.length < fuel →
        ∃ r, (s.interjectAll as).hook beh fuel = some r ∧ r.exit = .returned ∧
          r.invoked = s.interjections ++ as ∧ r.state.interjections = [] := by
    intro hbeh fuel hfuel
    unfold LuaInterjector.hook
    simp only [hc2, Bool.false_eq_true, if_false]
    rw [drain_plain beh hbeh]
    · exact ⟨_, rfl, rfl, by simp [interjectAll_interjections], rfl⟩
    · simpa [interjectAll_interjections] using hfuel
  refine ⟨?_, total, ?_⟩
  · intro fuel r hr
    rw [hook_conservation beh fuel _ r hr, interjectAll_interjections]
  · intro hbeh hq a1 a2 has fuel hfuel
    obtain ⟨r, hr, -, hinv, -⟩ := total hbeh fuel (by simp [hq, has]; omega)
    exact ⟨r, hr, by simpa [hq, has] using hinv⟩

/-- C2 at a concrete input: two delegates enqueued on a new interjector are invoked by
the next handler run in their enqueue order. -/
theorem hook_invokes_in_enqueue_order_witness :
    (((LuaInterjector.new sampleState 1).interjectAll [10, 20]).hook inertBehaviour 3).map
      (fun r => r.invoked) = some [10, 20] := by
  obtain ⟨r, hr, hinv⟩ :=
    (hook_invokes_in_enqueue_order inertBehaviour (LuaInterjector.new sampleState 1)
      [10, 20] rfl).2.2 (fun _ _ => ⟨rfl, rfl⟩) rfl 10 20 rfl 3 (by decide)
  rw [hr, Option.map_some', hinv]

/-! ## The allocation counter -/

theorem size_t_cast (w : Nat) (z : Int) : ((size_t w z : Nat) : Int) = z % (2 ^ w : Int) := by
  unfold size_t
  exact Int.toNat_of_nonneg (Int.emod_nonneg _ (by positivity))

theorem size_t_natCast (w n : Nat) : size_t w (n : Int) = n % 2 ^ w := by
  have h := size_t_cast w n
  have h2 : ((n : Int) % (2 ^ w : Int)) = ((n % 2 ^ w : Nat) : Int) := by push_cast; rfl
  rw [h2] at h
  exact_mod_cast h

theorem size_t_add_size_t (w : Nat) (a b : Int) :
    size_t w (a + (size_t w b : Nat)) = size_t w (a + b) := by
  rw [size_t_cast]
  unfold size_t
  rw [Int.add_emod_emod]

theorem size_t_of_lt (w n : Nat) (h : n < 2 ^ w) : size_t w (n : Int) = n := by
  rw [size_t_natCast, Nat.mod_eq_of_lt h]

/-- The counter after a call with a null `ptr`. -/
theorem alloc_counter_null (w : Nat) (answer : Option Nat) (st : AllocState)
    (osize nsize : Nat) :
    (LuaAllocTracker_alloc w answer st 0 osize nsize).1.ud._allocated =
      (st.ud._allocated + nsize) % 2 ^ w := by
  have h : size_t w ((st.ud._allocated : Int) + (nsize : Int)) =
      (st.ud._allocated + nsize) % 2 ^ w := by
    rw [← size_t_natCast]; push_cast; rfl
  unfold LuaAllocTracker_alloc
  simp only [↓reduceIte]
  split_ifs <;> exact h

/-- The counter after a call with a non-null `ptr`. -/
theorem alloc_counter_nonnull (w : Nat) (answer : Option Nat) (st : AllocState)
    (ptr osize nsize : Nat) (hptr : ptr ≠ 0) :
    (LuaAllocTracker_alloc w answer st ptr osize nsize).1.ud._allocated =
      size_t w ((st.ud._allocated : Int) + nsize - osize) := by
  have h : size_t w ((st.ud._allocated : Int) + (size_t w ((nsize : Int) - osize) : Nat)) =
      size_t w ((st.ud._allocated : Int) + nsize - osize) := by
    rw [size_t_add_size_t]; congr 1; ring
  unfold LuaAllocTracker_alloc
  simp only [hptr, ↓reduceIte]
  split_ifs <;> exact h

theorem allocAll_counter_null (w : Nat) (calls : List AllocCall) (st : AllocState)
    (hst : st.ud._allocated < 2 ^ w) (hnull : ∀ c ∈ calls, c.ptr = 0) :
    (allocAll w st calls).ud._allocated =
      (st.ud._allocated + (calls.map AllocCall.nsize).sum) % 2 ^ w := by
  induction calls generalizing st with
  | nil => simp [allocAll, Nat.mod_eq_of_lt hst]
  | cons c cs ih =>
    have hc : c.ptr = 0 := hnull c (List.mem_cons_self _ _)
    have hcs : ∀ d ∈ cs, d.ptr = 0 := fun d hd => hnull d (List.mem_cons_of_mem _ hd)
    have hstep := alloc_counter_null w c.answer st c.osize c.nsize
    have hlt : (LuaAllocTracker_alloc w c.answer st c.ptr c.osize c.nsize).1.ud._allocated
        < 2 ^ w := by
      rw [hc, hstep]; exact Nat.mod_lt _ (by positivity)
    have := ih _ hlt hcs
    simp only [allocAll, List.foldl_cons, List.map_cons, List.sum_cons] at this ⊢
    rw [this, hc, hstep, Nat.mod_add_mod, Nat.add_assoc]

/-- C4: starting from a new tracker, after any sequence of calls of
`LuaAllocTracker_alloc` with a null pointer (fresh allocations, no frees), with requested
sizes `s1 .. sM`, the counter read through `Allocated` is `s1 + ... + sM` in `size_t`
arithmetic, whatever `osize` and whatever `realloc` answers in those calls. -/
theorem allocated_after_fresh_allocations (w : Nat) (calls : List AllocCall)
    (hnull : ∀ c ∈ calls, c.ptr = 0) :
    (allocAll w AllocState.fresh calls).ud.Allocated =
      (calls.map AllocCall.nsize).sum % 2 ^ w := by
  have h := allocAll_counter_null w calls AllocState.fresh
    (by simp [AllocState.fresh, LuaAllocTracker.new]) hnull
  simpa [LuaAllocTracker.Allocated, AllocState.fresh, LuaAllocTracker.new] using h

/-- C4 at a concrete input: fresh allocations of 8, 16 and 100 bytes, passed the old
sizes 7, 3 and 0, leave the counter of a 64-bit platform at 124. -/
theorem allocated_after_fresh_allocations_witness :
    (allocAll 64 AllocState.fresh
      [{ answer := some 4096, ptr := 0, osize := 7, nsize := 8 },
       { answer := some 8192, ptr := 0, osize := 3, nsize := 16 },
       { answer := some 12288, ptr := 0, osize := 0, nsize := 100 }]).ud.Allocated = 124 := by
  rw [allocated_after_fresh_allocations 64 _ (by decide)]
  decide

/-- C5: for a counter value `c` (a `size_t`) and a block size `sk ≤ c`, the free call
(non-null `ptr`, `osize = sk`, `nsize = 0`) leaves the counter at exactly `c - sk` and
returns null; and a fresh allocation of `n` bytes that returns a block, followed by the
free of that block, leaves the counter at its value before the allocation. -/
theorem free_decreases_counter (w : Nat) (st : AllocState) (ptr sk : Nat)
    (hst : st.ud._allocated < 2 ^ w) (hsk : sk ≤ st.ud._allocated) (hptr : ptr ≠ 0) :
    (∀ answer, (LuaAllocTracker_alloc w answer st ptr sk 0).1.ud.Allocated
        = st.ud._allocated - sk ∧ (LuaAllocTracker_alloc w answer st ptr sk 0).2 = 0) ∧
    (∀ answer1 answer2 osize n,
        (LuaAllocTracker_alloc w answer1 st 0 osize n).2 ≠ 0 →
        (LuaAllocTracker_alloc w answer2 (LuaAllocTracker_alloc w answer1 st 0 osize n).1
          (LuaAllocTracker_alloc w answer1 st 0 osize n).2 n 0).1.ud.Allocated
          = st.ud.Allocated) := by
  constructor
  · intro answer
    constructor
    · rw [LuaAllocTracker.Allocated, alloc_counter_nonnull w answer st ptr sk 0 hptr]
      have h : ((st.ud._allocated : Int) + (0 : Nat) - sk) = ((st.ud._allocated - sk : Nat) : Int) := by
        push_cast [hsk]; ring
      rw [h, size_t_of_lt]
      omega
    · simp [LuaAllocTracker_alloc]
  · intro answer1 answer2 osize n hret
    rw [LuaAllocTracker.Allocated, alloc_counter_nonnull _ _ _ _ _ _ hret, alloc_counter_null]
    rw [← size_t_natCast]
    have h : size_t w (((size_t w ((st.ud._allocated + n : Nat) : Int) : Nat) : Int) + (0 : Nat) - n)
        = st.ud._allocated := by
      rw [size_t_cast]
      unfold size_t
      have h1 : ((((st.ud._allocated + n : Nat) : Int) % (2 ^ w : Int) + ((0 : Nat) : Int) - (n : Int))
          % (2 ^ w : Int)) = (st.ud._allocated : Int) := by
        rw [Nat.cast_zero, add_zero, sub_eq_add_neg, Int.emod_add_emod]
        push_cast
        rw [add_neg_cancel_right]
        exact Int.emod_eq_of_lt (by positivity) (by exact_mod_cast hst)
      rw [h1]
      exact Int.toNat_natCast _
    exact h

/-- C5 at a concrete input: with 100 bytes counted, freeing a 40-byte block leaves 60. -/
theorem free_decreases_counter_witness :
    (LuaAllocTracker_alloc 64 none
      { ud := { _allocated := 100 }, heap := { blocks := [(4096, 40), (8192, 60)] } }
      4096 40 0).1.ud.Allocated = 60 :=
  ((free_decreases_counter 64
      { ud := { _allocated := 100 }, heap := { blocks := [(4096, 40), (8192, 60)] } }
      4096 40 (by norm_num) (by decide) (by decide)).1 none).1

/-- C6, the code at a failing input: on a new tracker a 8-byte block is allocated at
address 4096, then a growth of that block to 32 bytes is refused by `realloc`.  The call
returns null and the block stays live with 8 bytes, yet the counter reads 32. -/
theorem counter_after_failed_growth :
    (allocAll 64 AllocState.fresh
      [{ answer := some 4096, ptr := 0, osize := 0, nsize := 8 },
       { answer := none, ptr := 4096, osize := 8, nsize := 32 }]).ud.Allocated = 32 ∧
    (allocAll 64 AllocState.fresh
      [{ answer := some 4096, ptr := 0, osize := 0, nsize := 8 },
       { answer := none, ptr := 4096, osize := 8, nsize := 32 }]).heap.liveBytes = 8 ∧
    (LuaAllocTracker_alloc 64 none
      (allocAll 64 AllocState.fresh [{ answer := some 4096, ptr := 0, osize := 0, nsize := 8 }])
      4096 8 32).2 = 0 := by
  decide

/-! ## Idle interjectors, cancellation messages, exactly-once execution, `luaW_presethook` -/

/-- An interjector with nothing queued, no cancellation and the hook disarmed stays so
under `RevertCancel` and under handler runs. -/
theorem History.run_idle {α : Type} (beh : Behaviour α) (fuel : Nat) (hfuel : 0 < fuel)
    (es : List (Event α)) (hes : ∀ e ∈ es, e.arms = false) (h0 : History α)
    (hq : h0.state.interjections = []) (hc : h0.state.cancelled = false)
    (hm : h0.state.L.hookmask = 0) :
    ∃ h, History.run beh fuel h0 es = some h ∧ h.state.L.hookmask = 0 ∧
      h.state.interjections = [] ∧ h.state.cancelled = false ∧ h.invoked = h0.invoked := by
  induction es generalizing h0 with
  | nil => exact ⟨h0, rfl, hm, hq, hc, rfl⟩
  | cons e es ih =>
    have hes2 : ∀ d ∈ es, d.arms = false := fun d hd => hes d (List.mem_cons_of_mem _ hd)
    have he := hes e (List.mem_cons_self _ _)
    obtain ⟨n, rfl⟩ : ∃ n, fuel = n + 1 := ⟨fuel - 1, by omega⟩
    cases e with
    | call c =>
      cases c with
      | Interject a => simp [Event.arms] at he
      | Cancel m e => simp [Event.arms] at he
      | RevertCancel =>
        obtain ⟨h, hrun, h1, h2, h3, h4⟩ :=
          ih hes2 { h0 with state := h0.state.RevertCancel } hq rfl hm
        exact ⟨h, by simpa [History.run, History.step, Call.apply, Call.enqueued] using hrun,
          h1, h2, h3, h4⟩
    | hook =>
      have hrun : h0.state.hook beh (n + 1) = some
          { exit := .returned, invoked := [], enqueued := [],
            state := { h0.state with L := (luaW_disablehook h0.state.L).1 } } := by
        unfold LuaInterjector.hook
        simp only [hc, Bool.false_eq_true, if_false]
        unfold drain
        simp [hq]
      obtain ⟨h, hrun2, h1, h2, h3, h4⟩ :=
        ih hes2
          { state := { h0.state with L := (luaW_disablehook h0.state.L).1 },
            invoked := h0.invoked ++ [], enqueued := h0.enqueued ++ [] } hq hc rfl
      refine ⟨h, ?_, h1, h2, h3, by simpa using h4⟩
      simp only [History.run, History.step, hrun, Option.map_some', Option.some_bind]
      exact hrun2

/-- C7: the hook stays disarmed when idle.  Immediately after
`luaH_setnewinterjectionhook` the event mask of the interpreter is 0, so it covers none of
the call, return and count events; and after any sequence of events that contains no
`Interject` and no `Cancel` (calls of `RevertCancel`, and even handler runs) the mask is
still 0, no delegate has been invoked, and the safepoint dispatch invokes the callback
for no event. -/
theorem hook_disarmed_when_idle {α : Type} (beh : Behaviour α) (L : lua_State)
    (hookDelegate : lua_Hook) (es : List (Event α)) (fuel : Nat) (hfuel : 0 < fuel)
    (hes : ∀ e ∈ es, e.arms = false) :
    (luaH_setnewinterjectionhook L hookDelegate : LuaInterjector α).L.hookmask = 0 ∧
    (luaH_setnewinterjectionhook L hookDelegate : LuaInterjector α).L.hookmask
      &&& (LUA_MASKCALL ||| LUA_MASKRET ||| LUA_MASKCOUNT) = 0 ∧
    ∃ h, History.run beh fuel
        (History.start (luaH_setnewinterjectionhook L hookDelegate)) es = some h ∧
      h.state.L.hookmask = 0 ∧ h.invoked = [] ∧
      ∀ eventMask, hookFires h.state.L eventMask = false := by
  have hm : (luaH_setnewinterjectionhook L hookDelegate : LuaInterjector α).L.hookmask = 0 := by
    simp [luaH_setnewinterjectionhook, luaW_presethook, resethookcount, cast_byte]
  refine ⟨hm, by rw [hm]; exact Nat.zero_and _, ?_⟩
  obtain ⟨h, hrun, h1, -, -, h4⟩ :=
    History.run_idle beh fuel hfuel es hes
      (History.start (luaH_setnewinterjectionhook L hookDelegate)) rfl rfl hm
  refine ⟨h, hrun, h1, h4, ?_⟩
  intro eventMask
  simp [hookFires, h1]

/-- C7 at a concrete input: a new interjector on an interpreter that had a hook armed,
after two `RevertCancel` calls and a handler run, has the event mask 0. -/
theorem hook_disarmed_when_idle_witness :
    (History.run inertBehaviour 1
      (History.start (luaH_setnewinterjectionhook sampleState 1))
      [.call .RevertCancel, .hook, .call .RevertCancel]).map
        (fun h => h.state.L.hookmask) = some 0 := by
  obtain ⟨-, -, h, hrun, hm, -, -⟩ :=
    hook_disarmed_when_idle inertBehaviour sampleState 1
      [.call .RevertCancel, .hook, .call .RevertCancel] 1 (by decide) (by decide)
  rw [hrun, Option.map_some', hm]

/-- C8, as stated, fails: the error does not carry the message whatever its characters.
For the message `"a\x00b"` in ASCII the stored bytes are `97 0 98`, but the C string that
the handler hands to `luaL_error` ends at the zero byte and is `97` alone, the very
string it hands over for the different message `"a"`. -/
theorem cancel_message_cut_at_nul :
    Encoding.ASCII.GetBytes "a\x00b" = [97, 0, 98] ∧
    (((LuaInterjector.new sampleState 1 : LuaInterjector Nat).Cancel (some "a\x00b")
        (some Encoding.ASCII)).hook inertBehaviour 1).map (fun r => r.exit)
      = some (.luaL_error (some [97])) ∧
    (((LuaInterjector.new sampleState 1 : LuaInterjector Nat).Cancel (some "a\x00b")
        (some Encoding.ASCII)).hook inertBehaviour 1).map (fun r => r.exit)
      ≠ some (.luaL_error (some (Encoding.ASCII.GetBytes "a\x00b"))) ∧
    (((LuaInterjector.new sampleState 1 : LuaInterjector Nat).Cancel (some "a\x00b")
        (some Encoding.ASCII)).hook inertBehaviour 1).map (fun r => r.exit)
      = (((LuaInterjector.new sampleState 1 : LuaInterjector Nat).Cancel (some "a")
        (some Encoding.ASCII)).hook inertBehaviour 1).map (fun r => r.exit) := by
  decide

/-- C8, amended: for every non-null message `m` and encoding `e`, in every state, after
`Cancel(m, e)` the next handler run calls `luaL_error` with, as its format argument, the
C string made of the bytes of `e.GetBytes(m)` that come before the first zero byte; this
is the whole of `e.GetBytes(m)` exactly when that encoding holds no zero byte.  No
delegate is invoked. -/
theorem hook_cancel_raises_message {α : Type} (beh : Behaviour α) (fuel : Nat)
    (s : LuaInterjector α) (m : String) (e : Encoding) :
    ∃ r, (s.Cancel (some m) (some e)).hook beh fuel = some r ∧ r.invoked = [] ∧
      r.exit = .luaL_error (some ((e.GetBytes m).takeWhile fun b => b != 0)) ∧
      (r.exit = .luaL_error (some (e.GetBytes m)) ↔ 0 ∉ e.GetBytes m) := by
  have htake : ∀ l : List Nat,
      (l ++ [0]).takeWhile (fun b => b != 0) = l.takeWhile (fun b => b != 0) := by
    intro l
    induction l with
    | nil => simp
    | cons b bs ih => by_cases hb : b = 0 <;> simp [List.takeWhile_cons, hb, ih]
  have hiff : ∀ l : List Nat, l.takeWhile (fun b => b != 0) = l ↔ 0 ∉ l := by
    intro l
    induction l with
    | nil => simp
    | cons b bs ih =>
      by_cases hb : b = 0
      · simp [List.takeWhile_cons, hb]
      · have hb2 : ¬ (0 = b) := fun h => hb h.symm
        simp [List.takeWhile_cons, hb, hb2, ih]
  refine ⟨{ exit := .luaL_error (some ((e.GetBytes m).takeWhile fun b => b != 0)),
            invoked := [], enqueued := [], state := s.Cancel (some m) (some e) },
          ?_, rfl, rfl, ?_⟩
  · simp [LuaInterjector.hook, LuaInterjector.Cancel, toCString, PinnedString.toCharPtr, htake]
  · simp only [HookExit.luaL_error.injEq, Option.some.injEq]
    exact hiff _

/-- With plain delegates and enough fuel, a list of `Interject` calls and handler runs
is carried out to its end, with cancellation still inactive, the queue no longer than at
the start plus the number of events, and the delegates enqueued being those of the
`Interject` calls. -/
theorem History.run_plain {α : Type} (beh : Behaviour α) (hbeh : beh.Plain) (fuel : Nat)
    (es : List (Event α)) (hes : ∀ e ∈ es, e.interjectOrHook = true) (h0 : History α)
    (hc : h0.state.cancelled = false)
    (hfuel : h0.state.interjections.length + es.length < fuel) :
    ∃ h, History.run beh fuel h0 es = some h ∧ h.state.cancelled = false ∧
      h.enqueued = h0.enqueued ++ Event.enqueued es ∧
      h.state.interjections.length ≤ h0.state.interjections.length + es.length := by
  induction es generalizing h0 with
  | nil => exact ⟨h0, rfl, hc, by simp [Event.enqueued], by simp⟩
  | cons e es ih =>
    have hes2 : ∀ d ∈ es, d.interjectOrHook = true :=
      fun d hd => hes d (List.mem_cons_of_mem _ hd)
    have he := hes e (List.mem_cons_self _ _)
    simp only [List.length_cons] at hfuel
    cases e with
    | call c =>
      cases c with
      | Cancel m e => simp [Event.interjectOrHook] at he
      | RevertCancel => simp [Event.interjectOrHook] at he
      | Interject a =>
        obtain ⟨h, hrun, h1, h2, h3⟩ :=
          ih hes2 { h0 with state := h0.state.Interject a, enqueued := h0.enqueued ++ [a] } hc
            (by simp [LuaInterjector.Interject]; omega)
        refine ⟨h, by simpa [History.run, History.step, Call.apply, Call.enqueued] using hrun,
          h1, ?_, ?_⟩
        · simpa [Event.enqueued] using h2
        · simp [LuaInterjector.Interject] at h3
          simp only [List.length_cons]
          omega
    | hook =>
      have hrun : h0.state.hook beh fuel = some
          { exit := .returned, invoked := h0.state.interjections, enqueued := [],
            state := { h0.state with
              interjections := [], L := (luaW_disablehook h0.state.L).1 } } := by
        unfold LuaInterjector.hook
        simp only [hc, Bool.false_eq_true, if_false]
        rw [drain_plain beh hbeh _ _ (by simp; omega)]
      obtain ⟨h, hrun2, h1, h2, h3⟩ :=
        ih hes2
          { state := { h0.state with
              interjections := [], L := (luaW_disablehook h0.state.L).1 },
            invoked := h0.invoked ++ h0.state.interjections,
            enqueued := h0.enqueued ++ [] } hc (by simp; omega)
      refine ⟨h, ?_, h1, ?_, ?_⟩
      · simp only [History.run, History.step, hrun, Option.map_some', Option.some_bind]
        exact hrun2
      · simpa [Event.enqueued] using h2
      · simp at h3
        simp only [List.length_cons]
        omega

/-- C9: exactly-once execution, sequential form.  Take any interleaving `es` of
`Interject` calls and handler runs, followed by a final handler run, on an interjector
with no cancellation active.
(1) With delegates that neither fail nor call back into the interjector, and more fuel
than there are queued delegates and events, the whole sequence is carried out, and the
concatenation of the delegates invoked by the handler runs is the initial queue followed
by the delegates enqueued, in order: each is invoked exactly once, none again by a later
run, and none is left in the queue.
(2) With delegates that merely never fail and never cancel (they may enqueue), whenever
the sequence is carried out to its end the delegates invoked are the initial queue
followed by all delegates enqueued, by callers or by delegates, in order, and the queue
is empty. -/
theorem interjections_invoked_exactly_once {α : Type} (beh : Behaviour α)
    (s : LuaInterjector α) (hc : s.cancelled = false)
    (es : List (Event α)) (hes : ∀ e ∈ es, e.interjectOrHook = true) :
    (beh.Plain → ∀ fuel, s.interjections.length + es.length + 1 < fuel →
      ∃ h, History.run beh fuel (History.start s) (es ++ [.hook]) = some h ∧
        h.invoked = s.interjections ++ Event.enqueued es ∧
        h.state.interjections = [] ∧ h.state.cancelled = false) ∧
    (beh.NeverFails → beh.NeverCancels → ∀ fuel h,
      History.run beh fuel (History.start s) (es ++ [.hook]) = some h →
        h.invoked = s.interjections ++ h.enqueued ∧ h.state.interjections = []) := by
  have general : beh.NeverFails → beh.NeverCancels → ∀ fuel h,
      History.run beh fuel (History.start s) (es ++ [.hook]) = some h →
        h.invoked = s.interjections ++ h.enqueued ∧ h.state.interjections = [] := by
    intro hnf hnc fuel h hrun
    have hcons := History.run_conservation beh fuel s.interjections (es ++ [.hook])
      (History.start s) h (by simp [History.start]) hrun
    rw [History.run_append] at hrun
    simp only [Option.bind_eq_some] at hrun
    obtain ⟨h1, hrun1, hlast⟩ := hrun
    have hc1 := History.run_not_cancelled beh hnc fuel es hes (History.start s) h1 hc hrun1
    simp only [History.run, History.step, Option.bind_eq_some, Option.map_eq_some',
      Option.some.injEq] at hlast
    obtain ⟨h2, ⟨r, hr, rfl⟩, rfl⟩ := hlast
    unfold LuaInterjector.hook at hr
    simp only [hc1, Bool.false_eq_true, if_false] at hr
    obtain ⟨-, hq⟩ := drain_returned beh hnf fuel _ r hr
    simp only [hq, List.append_nil] at hcons
    exact ⟨hcons, hq⟩
  refine ⟨?_, general⟩
  intro hbeh fuel hfuel
  obtain ⟨h1, hrun1, hc1, henq, hlen⟩ :=
    History.run_plain beh hbeh fuel es hes (History.start s) hc
      (by simp only [History.start]; omega)
  have hhook : h1.state.hook beh fuel = some
      { exit := .returned, invoked := h1.state.interjections, enqueued := [],
        state := { h1.state with
          interjections := [], L := (luaW_disablehook h1.state.L).1 } } := by
    unfold LuaInterjector.hook
    simp only [hc1, Bool.false_eq_true, if_false]
    rw [drain_plain beh hbeh _ _ (by simp only [History.start] at hlen ⊢; omega)]
  have hrun : History.run beh fuel (History.start s) (es ++ [.hook]) = some
      { state := { h1.state with
          interjections := [], L := (luaW_disablehook h1.state.L).1 },
        invoked := h1.invoked ++ h1.state.interjections,
        enqueued := h1.enqueued ++ [] } := by
    rw [History.run_append, hrun1]
    simp [History.run, History.step, hhook]
  obtain ⟨hinv, hq⟩ := general hbeh.neverFails hbeh.neverCancels fuel _ hrun
  refine ⟨_, hrun, ?_, hq, hc1⟩
  rw [hinv]
  simp [henq, History.start]

/-- C9 at a concrete input: one delegate enqueued, a handler run, two more delegates
enqueued, a handler run; the two runs together invoke the three delegates once each, in
enqueue order. -/
theorem interjections_invoked_exactly_once_witness :
    (History.run inertBehaviour 6 (History.start (LuaInterjector.new sampleState 1))
      ([.call (.Interject 10), .hook, .call (.Interject 20), .call (.Interject 30)]
        ++ [.hook])).map (fun h => (h.invoked, h.state.interjections))
      = some ([10, 20, 30], []) := by
  obtain ⟨h, hrun, hinv, hq, -⟩ :=
    (interjections_invoked_exactly_once inertBehaviour
      (LuaInterjector.new sampleState 1) rfl
      [.call (.Interject 10), .hook, .call (.Interject 20), .call (.Interject 30)]
      (by decide)).1 (fun _ _ => ⟨rfl, rfl⟩) 6 (by decide)
  rw [hrun, Option.map_some', hinv, hq]
  rfl

/-- C10: the postcondition of `luaW_presethook`.  For every interpreter state and every
callback `f`, after `luaW_presethook(L, f)` the installed callback is `f`, the base
instruction threshold is 1, the running hook count is reset to it (1), the event mask is
0, and the call returns 1; a later `luaW_presethook(L, g)` replaces the callback by `g`,
again with threshold 1, count 1 and mask 0.  The current frame is untouched, and the
saved `oldpc` is the frame's `savedpc` when the frame runs a Lua function. -/
theorem luaW_presethook_post (L : lua_State) (f g : lua_Hook) :
    (luaW_presethook L f).1.hook = f ∧
    (luaW_presethook L f).1.basehookcount = 1 ∧
    (luaW_presethook L f).1.hookcount = 1 ∧
    (luaW_presethook L f).1.hookmask = 0 ∧
    (luaW_presethook L f).2 = 1 ∧
    (luaW_presethook L f).1.ci = L.ci ∧
    (luaW_presethook L f).1.oldpc = (if L.ci.isLua then L.ci.savedpc else L.oldpc) ∧
    (luaW_presethook (luaW_presethook L f).1 g).1.hook = g ∧
    (luaW_presethook (luaW_presethook L f).1 g).1.basehookcount = 1 ∧
    (luaW_presethook (luaW_presethook L f).1 g).1.hookcount = 1 ∧
    (luaW_presethook (luaW_presethook L f).1 g).1.hookmask = 0 ∧
    (luaW_presethook (luaW_presethook L f).1 g).2 = 1 := by
  cases h : L.ci.isLua <;>
    simp [luaW_presethook, resethookcount, cast_byte, h]

/-! ## The live-byte total when `realloc` does not fail -/

theorem Heap.filter_addresses_sublist (blocks : List (Nat × Nat)) (ptr : Nat) :
    ((blocks.filter fun b => b.1 != ptr).map Prod.fst).Sublist (blocks.map Prod.fst) :=
  (List.filter_sublist _).map _

theorem Heap.not_mem_filter_addresses (blocks : List (Nat × Nat)) (ptr : Nat) :
    ptr ∉ (blocks.filter fun b => b.1 != ptr).map Prod.fst := by
  simp [List.mem_map, List.mem_filter]

theorem Heap.filter_null (blocks : List (Nat × Nat)) (h0 : 0 ∉ blocks.map Prod.fst) :
    (blocks.filter fun b => b.1 != 0) = blocks := by
  rw [List.filter_eq_self]
  intro b hb
  have : b.1 ≠ 0 := fun h => h0 (h ▸ List.mem_map_of_mem Prod.fst hb)
  simpa using this

theorem Heap.sum_filter_add (blocks : List (Nat × Nat)) (ptr osize : Nat)
    (hnd : (blocks.map Prod.fst).Nodup) (hmem : (ptr, osize) ∈ blocks) :
    ((blocks.filter fun b => b.1 != ptr).map Prod.snd).sum + osize
      = (blocks.map Prod.snd).sum := by
  induction blocks with
  | nil => simp at hmem
  | cons b bs ih =>
    simp only [List.map_cons, List.nodup_cons] at hnd
    rcases List.mem_cons.1 hmem with h | h
    · subst h
      have hrest : (bs.filter fun b => b.1 != ptr) = bs := by
        rw [List.filter_eq_self]
        intro c hc
        have hc1 : c.1 ∈ bs.map Prod.fst := List.mem_map_of_mem Prod.fst hc
        have : c.1 ≠ ptr := by
          intro h
          apply hnd.1
          show ptr ∈ bs.map Prod.fst
          rw [← h]
          exact hc1
        simpa using this
      simp [List.filter_cons, hrest, Nat.add_comm]
    · have hne : b.1 ≠ ptr := by
        intro hb
        apply hnd.1
        rw [hb]
        exact List.mem_map_of_mem Prod.fst h
      have := ih hnd.2 h
      simp only [List.filter_cons, bne_iff_ne, ne_eq, hne, not_false_eq_true, ↓reduceIte,
        List.map_cons, List.sum_cons]
      omega

theorem size_t_mod_add (w x : Nat) (z : Int) :
    size_t w (((x % 2 ^ w : Nat) : Int) + z) = size_t w ((x : Int) + z) := by
  unfold size_t
  congr 1
  push_cast
  exact Int.emod_add_emod _ _ _

/-- One served call keeps the heap well formed and the counter equal to the live-byte
total in `size_t` arithmetic. -/
theorem alloc_served_step (w : Nat) (st : AllocState) (c : AllocCall)
    (hwf : st.heap.WellFormed) (hcount : st.ud._allocated = st.heap.liveBytes % 2 ^ w)
    (hc : c.Served st.heap) :
    (LuaAllocTracker_alloc w c.answer st c.ptr c.osize c.nsize).1.heap.WellFormed ∧
    (LuaAllocTracker_alloc w c.answer st c.ptr c.osize c.nsize).1.ud._allocated
      = (LuaAllocTracker_alloc w c.answer st c.ptr c.osize c.nsize).1.heap.liveBytes
          % 2 ^ w := by
  obtain ⟨h0, hnd⟩ := hwf
  obtain ⟨hlive, hserved⟩ := hc
  simp only [Heap.addresses] at h0 hnd hserved
  by_cases hptr : c.ptr = 0
  · -- a fresh allocation
    rw [hptr, alloc_counter_null, hcount, Nat.mod_add_mod]
    by_cases hn : c.nsize = 0
    · simp [LuaAllocTracker_alloc, hn, free, Heap.WellFormed, Heap.addresses, h0, hnd]
    · obtain ⟨q, hq, hq0, hqfresh⟩ := hserved hn
      have hqnew : q ∉ st.heap.blocks.map Prod.fst := by
        rcases hqfresh with h | h
        · exact absurd (h.trans hptr) hq0
        · exact h
      have hq0' : ¬ (0 = q) := fun h => hq0 h.symm
      simp only [LuaAllocTracker_alloc, hn, hq, realloc, Heap.filter_null _ h0,
        Heap.WellFormed, Heap.addresses, Heap.liveBytes, ↓reduceIte, List.map_cons,
        List.mem_cons, List.nodup_cons, List.sum_cons]
      exact ⟨⟨by simp [hq0', h0], hqnew, hnd⟩, by rw [Nat.add_comm]⟩
  · -- a resize or a free of the live block at `ptr`
    have hmem := hlive hptr
    have hsum := Heap.sum_filter_add st.heap.blocks c.ptr c.osize hnd hmem
    have hsub := Heap.filter_addresses_sublist st.heap.blocks c.ptr
    have h0' : 0 ∉ (st.heap.blocks.filter fun b => b.1 != c.ptr).map Prod.fst :=
      fun h => h0 (hsub.subset h)
    have hnd' : ((st.heap.blocks.filter fun b => b.1 != c.ptr).map Prod.fst).Nodup :=
      hnd.sublist hsub
    have hcnt : size_t w ((st.ud._allocated : Int) + c.nsize - c.osize)
        = (c.nsize + ((st.heap.blocks.filter fun b => b.1 != c.ptr).map Prod.snd).sum)
            % 2 ^ w := by
      conv_rhs => rw [← size_t_natCast]
      rw [hcount, add_sub_assoc, size_t_mod_add]
      congr 1
      simp only [Heap.liveBytes, ← hsum]
      push_cast
      ring
    rw [alloc_counter_nonnull _ _ _ _ _ _ hptr, hcnt]
    by_cases hn : c.nsize = 0
    · simp only [LuaAllocTracker_alloc, hn, free, hptr, Heap.WellFormed, Heap.addresses,
        Heap.liveBytes, ↓reduceIte, Nat.zero_add]
      exact ⟨⟨h0', hnd'⟩, trivial⟩
    · obtain ⟨q, hq, hq0, hqfresh⟩ := hserved hn
      have hqnew : q ∉ (st.heap.blocks.filter fun b => b.1 != c.ptr).map Prod.fst := by
        rcases hqfresh with h | h
        · rw [h]; exact Heap.not_mem_filter_addresses _ _
        · exact fun hq => h (hsub.subset hq)
      have hq0' : ¬ (0 = q) := fun h => hq0 h.symm
      simp only [LuaAllocTracker_alloc, hn, hq, realloc, Heap.WellFormed, Heap.addresses,
        Heap.liveBytes, ↓reduceIte, List.map_cons, List.mem_cons, List.nodup_cons,
        List.sum_cons]
      exact ⟨⟨by simp [hq0', h0'], hqnew, hnd'⟩, trivial⟩

theorem allocAll_served (w : Nat) (calls : List AllocCall) (st : AllocState)
    (hwf : st.heap.WellFormed) (hcount : st.ud._allocated = st.heap.liveBytes % 2 ^ w)
    (hcalls : allServed w st calls) :
    (allocAll w st calls).ud._allocated = (allocAll w st calls).heap.liveBytes % 2 ^ w := by
  induction calls generalizing st with
  | nil => simpa [allocAll] using hcount
  | cons c cs ih =>
    obtain ⟨hc, hcs⟩ := hcalls
    obtain ⟨hwf2, hcount2⟩ := alloc_served_step w st c hwf hcount hc
    simpa [allocAll] using ih _ hwf2 hcount2 hcs

/-- The live-byte total when `realloc` does not fail: starting from a new tracker, after
any sequence of calls of `LuaAllocTracker_alloc` in which every non-null `ptr` is a live
block passed with its real size and every `realloc` succeeds, the counter read through
`Allocated` is the total size of the live blocks, in `size_t` arithmetic. -/
theorem allocated_is_live_bytes (w : Nat) (calls : List AllocCall)
    (hcalls : allServed w AllocState.fresh calls) :
    (allocAll w AllocState.fresh calls).ud.Allocated
      = (allocAll w AllocState.fresh calls).heap.liveBytes % 2 ^ w :=
  allocAll_served w calls AllocState.fresh
    (by simp [AllocState.fresh, Heap.WellFormed, Heap.addresses])
    (by simp [AllocState.fresh, LuaAllocTracker.new, Heap.liveBytes]) hcalls

/-- The live-byte total at a concrete input: allocate 8 bytes, allocate 16 bytes, grow
the first block to 32 bytes at a new address, free the second block; 32 bytes are live
and counted. -/
theorem allocated_is_live_bytes_witness :
    (allocAll 64 AllocState.fresh
      [{ answer := some 4096, ptr := 0, osize := 0, nsize := 8 },
       { answer := some 8192, ptr := 0, osize := 5, nsize := 16 },
       { answer := some 12288, ptr := 4096, osize := 8, nsize := 32 },
       { answer := none, ptr := 8192, osize := 16, nsize := 0 }]).ud.Allocated = 32 := by
  rw [allocated_is_live_bytes 64 _ (by
    simp [allServed, AllocCall.Served, AllocState.fresh, LuaAllocTracker_alloc, realloc,
      free, Heap.addresses])]
  decide

/-! ## Postconditions of `luaW_enablehook`, `luaW_disablehook`, `Interject`, `Cancel`, `RevertCancel` -/

/-- C11: the postcondition of `luaW_enablehook`.  For every interpreter state, after
`luaW_enablehook(L)` the event mask is exactly `LUA_MASKCALL | LUA_MASKRET |
LUA_MASKCOUNT` (the value 11), in which the line-event bit is not set; the installed
callback, the instruction threshold, the running hook count (and the frame and `oldpc`)
are unchanged; the call returns 1; and a second call changes nothing more. -/
theorem luaW_enablehook_post (L : lua_State) :
    (luaW_enablehook L).1.hookmask = LUA_MASKCALL ||| LUA_MASKRET ||| LUA_MASKCOUNT ∧
    (luaW_enablehook L).1.hookmask = 11 ∧
    (luaW_enablehook L).1.hookmask &&& LUA_MASKLINE = 0 ∧
    (luaW_enablehook L).1.hookmask &&& LUA_MASKCALL = LUA_MASKCALL ∧
    (luaW_enablehook L).1.hookmask &&& LUA_MASKRET = LUA_MASKRET ∧
    (luaW_enablehook L).1.hookmask &&& LUA_MASKCOUNT = LUA_MASKCOUNT ∧
    (luaW_enablehook L).1.hook = L.hook ∧
    (luaW_enablehook L).1.basehookcount = L.basehookcount ∧
    (luaW_enablehook L).1.hookcount = L.hookcount ∧
    (luaW_enablehook L).1.ci = L.ci ∧
    (luaW_enablehook L).1.oldpc = L.oldpc ∧
    (luaW_enablehook L).2 = 1 ∧
    luaW_enablehook (luaW_enablehook L).1 = luaW_enablehook L := by
  refine ⟨?_, ?_, ?_, ?_, ?_, ?_, rfl, rfl, rfl, rfl, rfl, rfl, rfl⟩ <;>
    simp only [luaW_enablehook] <;> decide

/-- C12: the postcondition and frame of `luaW_disablehook`.  For every interpreter
state, after `luaW_disablehook(L)` the event mask is 0 while the installed callback, the
instruction threshold (and the running hook count, the frame and `oldpc`) are unchanged;
the call returns 1; and a subsequent `luaW_enablehook` arms the hook again, with the
same callback and threshold, to the very state `luaW_enablehook` gives without the
disarming in between. -/
theorem luaW_disablehook_post (L : lua_State) :
    (luaW_disablehook L).1.hookmask = 0 ∧
    (luaW_disablehook L).1.hook = L.hook ∧
    (luaW_disablehook L).1.basehookcount = L.basehookcount ∧
    (luaW_disablehook L).1.hookcount = L.hookcount ∧
    (luaW_disablehook L).1.ci = L.ci ∧
    (luaW_disablehook L).1.oldpc = L.oldpc ∧
    (luaW_disablehook L).2 = 1 ∧
    (luaW_enablehook (luaW_disablehook L).1).1.hookmask
      = LUA_MASKCALL ||| LUA_MASKRET ||| LUA_MASKCOUNT ∧
    (luaW_enablehook (luaW_disablehook L).1).1.hook = L.hook ∧
    (luaW_enablehook (luaW_disablehook L).1).1.basehookcount = L.basehookcount ∧
    luaW_enablehook (luaW_disablehook L).1 = luaW_enablehook L := by
  refine ⟨?_, rfl, rfl, rfl, rfl, rfl, rfl, ?_, rfl, rfl, rfl⟩ <;>
    simp only [luaW_disablehook, luaW_enablehook] <;> decide

/-- C13: the postcondition of `Interject`.  For every interjector state with queue `q`
and every delegate `a`, after `Interject(a)` the queue is `q` with `a` appended at the
tail, the event mask is `LUA_MASKCALL | LUA_MASKRET | LUA_MASKCOUNT` (armed, not 0), and
the cancellation flag, the stored message and its encoding are unchanged; of the
interpreter only the event mask has changed. -/
theorem Interject_post {α : Type} (s : LuaInterjector α) (a : α) :
    (s.Interject a).interjections = s.interjections ++ [a] ∧
    (s.Interject a).L.hookmask = LUA_MASKCALL ||| LUA_MASKRET ||| LUA_MASKCOUNT ∧
    (s.Interject a).L.hookmask ≠ 0 ∧
    (s.Interject a).cancelled = s.cancelled ∧
    (s.Interject a).message = s.message ∧
    (s.Interject a).messageEncoding = s.messageEncoding ∧
    (s.Interject a).hookDelegate = s.hookDelegate ∧
    (s.Interject a).L = { s.L with hookmask := (s.Interject a).L.hookmask } := by
  refine ⟨rfl, ?_, ?_, rfl, rfl, rfl, rfl, rfl⟩ <;>
    simp only [LuaInterjector.Interject, luaW_enablehook] <;> decide

/-- C14: `Cancel` sets the flag, stores the message and its encoding, arms the hook and
leaves the queue alone; a later call overwrites an earlier one, so the state after
`Cancel(m1, e1); Cancel(m2, e2)` is the state after `Cancel(m2, e2)` alone, and `Cancel(m,
e)` applied twice is `Cancel(m, e)` applied once. -/
theorem Cancel_overwrites {α : Type} (s : LuaInterjector α) (m1 m2 : Option String)
    (e1 e2 : Option Encoding) :
    (s.Cancel m1 e1).Cancel m2 e2 = s.Cancel m2 e2 ∧
    (s.Cancel m1 e1).Cancel m1 e1 = s.Cancel m1 e1 ∧
    (s.Cancel m2 e2).cancelled = true ∧
    (s.Cancel m2 e2).message = m2 ∧
    (s.Cancel m2 e2).messageEncoding = e2 ∧
    (s.Cancel m2 e2).L.hookmask = LUA_MASKCALL ||| LUA_MASKRET ||| LUA_MASKCOUNT ∧
    (s.Cancel m2 e2).L.hookmask ≠ 0 ∧
    (s.Cancel m2 e2).interjections = s.interjections := by
  refine ⟨rfl, rfl, rfl, rfl, rfl, ?_, ?_, rfl⟩ <;>
    simp only [LuaInterjector.Cancel, luaW_enablehook] <;> decide

/-- C15: `RevertCancel` clears the cancellation flag and the stored message and changes
nothing else.  For every interjector state, after `RevertCancel()` the flag is false and
the message is null, while the interpreter state with its event mask, the queue, the
stored encoding and the delegate are exactly as before; so with delegates still queued
and the hook armed, the hook stays armed. -/
theorem RevertCancel_post {α : Type} (s : LuaInterjector α) :
    s.RevertCancel.cancelled = false ∧
    s.RevertCancel.message = none ∧
    s.RevertCancel.L = s.L ∧
    s.RevertCancel.L.hookmask = s.L.hookmask ∧
    s.RevertCancel.interjections = s.interjections ∧
    s.RevertCancel.messageEncoding = s.messageEncoding ∧
    s.RevertCancel.hookDelegate = s.hookDelegate ∧
    s.RevertCancel = { s with message := none, cancelled := false } ∧
    (s.interjections ≠ [] → s.L.hookmask ≠ 0 →
      s.RevertCancel.interjections ≠ [] ∧ s.RevertCancel.L.hookmask ≠ 0) :=
  ⟨rfl, rfl, rfl, rfl, rfl, rfl, rfl, rfl, fun hq hm => ⟨hq, hm⟩⟩

/-! ## Lemmas on the event mask during a drain -/

section MaskLemmas

variable {α : Type}

theorem armed_ne_zero : LUA_MASKCALL ||| LUA_MASKRET ||| LUA_MASKCOUNT ≠ 0 := by decide

theorem enablehook_mask (L : lua_State) :
    (luaW_enablehook L).1.hookmask = LUA_MASKCALL ||| LUA_MASKRET ||| LUA_MASKCOUNT := by
  simp only [luaW_enablehook]; decide

/-- A call on the interjector arms the hook, unless it is `RevertCancel`, which leaves
the interpreter alone. -/
theorem Call.apply_mask (s : LuaInterjector α) (c : Call α) :
    (c.apply s).L.hookmask = LUA_MASKCALL ||| LUA_MASKRET ||| LUA_MASKCOUNT ∨
      ((c.apply s).L = s.L ∧ c.apply s = s.RevertCancel) := by
  cases c with
  | Interject a => exact Or.inl (enablehook_mask _)
  | Cancel m e => exact Or.inl (enablehook_mask _)
  | RevertCancel => exact Or.inr ⟨rfl, rfl⟩

/-- A property of the interjector that every call and every dequeue preserves holds
after a drain if it held before. -/
theorem drain_invariant (P : LuaInterjector α → Prop)
    (hdeq : ∀ s rest, P s → P { s with interjections := rest })
    (happly : ∀ s c, P s → P (Call.apply s c))
    (beh : Behaviour α) (fuel : Nat) (s : LuaInterjector α) (r : HookRun α)
    (h : drain beh fuel s = some r) (hs : P s) : P r.state := by
  have hfold : ∀ (calls : List (Call α)) (t : LuaInterjector α),
      P t → P (calls.foldl Call.apply t) := by
    intro calls
    induction calls with
    | nil => intro t ht; exact ht
    | cons c cs ih => intro t ht; exact ih _ (happly t c ht)
  induction fuel generalizing s r with
  | zero => simp [drain] at h
  | succ n ih =>
    unfold drain at h
    cases hq : s.interjections with
    | nil =>
      rw [hq] at h
      simp only [Option.some.injEq] at h
      subst h
      exact hs
    | cons a rest =>
      rw [hq] at h
      simp only at h
      have hs2 := hfold (beh a { s with interjections := rest }).calls _ (hdeq s rest hs)
      cases he : (beh a { s with interjections := rest }).error with
      | some err =>
        rw [he] at h
        simp only [Option.some.injEq] at h
        subst h
        exact hs2
      | none =>
        rw [he] at h
        simp only [Option.map_eq_some'] at h
        obtain ⟨r1, hr1, rfl⟩ := h
        exact ih _ r1 hr1 hs2

/-- Once armed, the hook stays armed to the end of the drain. -/
theorem drain_stays_armed (beh : Behaviour α) (fuel : Nat) (s : LuaInterjector α)
    (r : HookRun α) (h : drain beh fuel s = some r)
    (hs : s.L.hookmask = LUA_MASKCALL ||| LUA_MASKRET ||| LUA_MASKCOUNT) :
    r.state.L.hookmask = LUA_MASKCALL ||| LUA_MASKRET ||| LUA_MASKCOUNT := by
  refine drain_invariant
    (fun t => t.L.hookmask = LUA_MASKCALL ||| LUA_MASKRET ||| LUA_MASKCOUNT)
    (fun _ _ ht => ht) ?_ beh fuel s r h hs
  intro t c ht
  rcases Call.apply_mask t c with h1 | ⟨h1, -⟩
  · exact h1
  · show (c.apply t).L.hookmask = _
    rw [h1]; exact ht

/-- A drain keeps: if cancellation is active then the hook is armed. -/
theorem drain_cancelled_armed (beh : Behaviour α) (fuel : Nat) (s : LuaInterjector α)
    (r : HookRun α) (h : drain beh fuel s = some r)
    (hs : s.cancelled = true →
      s.L.hookmask = LUA_MASKCALL ||| LUA_MASKRET ||| LUA_MASKCOUNT) :
    r.state.cancelled = true →
      r.state.L.hookmask = LUA_MASKCALL ||| LUA_MASKRET ||| LUA_MASKCOUNT := by
  refine drain_invariant
    (fun t => t.cancelled = true →
      t.L.hookmask = LUA_MASKCALL ||| LUA_MASKRET ||| LUA_MASKCOUNT)
    (fun _ _ ht => ht) ?_ beh fuel s r h hs
  intro t c ht
  cases c with
  | Interject a => exact fun _ => enablehook_mask _
  | Cancel m e => exact fun _ => enablehook_mask _
  | RevertCancel => intro hc; simp [Call.apply, LuaInterjector.RevertCancel] at hc

theorem Call.foldl_apply_enqueued_armed (calls : List (Call α)) (s : LuaInterjector α)
    (h : Call.enqueued calls ≠ [] ∨
      s.L.hookmask = LUA_MASKCALL ||| LUA_MASKRET ||| LUA_MASKCOUNT) :
    (calls.foldl Call.apply s).L.hookmask
      = LUA_MASKCALL ||| LUA_MASKRET ||| LUA_MASKCOUNT := by
  induction calls generalizing s with
  | nil =>
    rcases h with h | h
    · exact absurd rfl h
    · exact h
  | cons c cs ih =>
    rw [List.foldl_cons]
    apply ih
    cases c with
    | Interject a => exact Or.inr (enablehook_mask _)
    | Cancel m e => exact Or.inr (enablehook_mask _)
    | RevertCancel =>
      rcases h with h | h
      · exact Or.inl (by simpa [Call.enqueued] using h)
      · exact Or.inr h

/-- A drain during which a delegate enqueued something ends with the hook armed. -/
theorem drain_enqueued_armed (beh : Behaviour α) (fuel : Nat) (s : LuaInterjector α)
    (r : HookRun α) (h : drain beh fuel s = some r) (henq : r.enqueued ≠ []) :
    r.state.L.hookmask = LUA_MASKCALL ||| LUA_MASKRET ||| LUA_MASKCOUNT := by
  induction fuel generalizing s r with
  | zero => simp [drain] at h
  | succ n ih =>
    unfold drain at h
    cases hq : s.interjections with
    | nil =>
      rw [hq] at h
      simp only [Option.some.injEq] at h
      subst h
      exact absurd rfl henq
    | cons a rest =>
      rw [hq] at h
      simp only at h
      cases he : (beh a { s with interjections := rest }).error with
      | some err =>
        rw [he] at h
        simp only [Option.some.injEq] at h
        subst h
        exact Call.foldl_apply_enqueued_armed _ _ (Or.inl henq)
      | none =>
        rw [he] at h
        simp only [Option.map_eq_some'] at h
        obtain ⟨r1, hr1, rfl⟩ := h
        by_cases h1 : r1.enqueued = []
        · have h2 : Call.enqueued (beh a { s with interjections := rest }).calls ≠ [] := by
            intro h2
            apply henq
            simp [h1, h2]
          exact drain_stays_armed beh n _ r1 hr1
            (Call.foldl_apply_enqueued_armed _ _ (Or.inl h2))
        · exact ih _ r1 hr1 h1

/-- A drain ends by returning, with the queue empty, or with the error of a delegate. -/
theorem drain_exit (beh : Behaviour α) (fuel : Nat) (s : LuaInterjector α)
    (r : HookRun α) (h : drain beh fuel s = some r) :
    (r.exit = .returned ∧ r.state.interjections = []) ∨
      ∃ err, r.exit = .interjectionError err := by
  induction fuel generalizing s r with
  | zero => simp [drain] at h
  | succ n ih =>
    unfold drain at h
    cases hq : s.interjections with
    | nil =>
      rw [hq] at h
      simp only [Option.some.injEq] at h
      subst h
      exact Or.inl ⟨rfl, hq⟩
    | cons a rest =>
      rw [hq] at h
      simp only at h
      cases he : (beh a { s with interjections := rest }).error with
      | some err =>
        rw [he] at h
        simp only [Option.some.injEq] at h
        subst h
        exact Or.inr ⟨err, rfl⟩
      | none =>
        rw [he] at h
        simp only [Option.map_eq_some'] at h
        obtain ⟨r1, hr1, rfl⟩ := h
        exact ih _ r1 hr1

theorem Call.mem_enqueued (calls : List (Call α)) (b : α)
    (h : Call.Interject b ∈ calls) : b ∈ Call.enqueued calls := by
  induction calls with
  | nil => simp at h
  | cons c cs ih =>
    rcases List.mem_cons.1 h with h1 | h1
    · subst h1
      simp [Call.enqueued]
    · cases c <;> simp [Call.enqueued, ih h1]

/-- A delegate that was invoked and calls `Interject(b)` has enqueued `b`. -/
theorem drain_mem_enqueued (beh : Behaviour α) (fuel : Nat) (s : LuaInterjector α)
    (r : HookRun α) (h : drain beh fuel s = some r) (a b : α) (ha : a ∈ r.invoked)
    (hab : ∀ t, Call.Interject b ∈ (beh a t).calls) : b ∈ r.enqueued := by
  induction fuel generalizing s r with
  | zero => simp [drain] at h
  | succ n ih =>
    unfold drain at h
    cases hq : s.interjections with
    | nil =>
      rw [hq] at h
      simp only [Option.some.injEq] at h
      subst h
      simp at ha
    | cons x rest =>
      rw [hq] at h
      simp only at h
      cases he : (beh x { s with interjections := rest }).error with
      | some err =>
        rw [he] at h
        simp only [Option.some.injEq] at h
        subst h
        simp only [List.mem_singleton] at ha
        subst ha
        exact Call.mem_enqueued _ _ (hab _)
      | none =>
        rw [he] at h
        simp only [Option.map_eq_some'] at h
        obtain ⟨r1, hr1, rfl⟩ := h
        simp only [List.mem_cons] at ha
        simp only [List.mem_append]
        rcases ha with ha | ha
        · subst ha
          exact Or.inl (Call.mem_enqueued _ _ (hab _))
        · exact Or.inr (ih _ r1 hr1 ha)

end MaskLemmas

/-! ## Lemmas on drains that fail and on drains of quiet delegates -/

section AbortLemmas

variable {α : Type}

/-- One round of the drain loop with a delegate that does not fail. -/
theorem drain_step (beh : Behaviour α) (n : Nat) (s : LuaInterjector α) (a : α)
    (rest : List α) (hq : s.interjections = a :: rest)
    (he : (beh a { s with interjections := rest }).error = none) :
    drain beh (n + 1) s
      = (drain beh n ((beh a { s with interjections := rest }).calls.foldl Call.apply
          { s with interjections := rest })).map fun r =>
          { r with invoked := a :: r.invoked,
                   enqueued := Call.enqueued (beh a { s with interjections := rest }).calls
                     ++ r.enqueued } := by
  conv_lhs => unfold drain
  simp only [hq, he]

/-- A drain of a queue whose first failing delegate is `a`, after the delegates `pre`
that do not fail: it ends with the error of `a`, having invoked `pre` and `a`, and leaves
queued the delegates behind `a`, followed by those enqueued meanwhile. -/
theorem drain_aborts (beh : Behaviour α) (pre : List α) (a : α) (err : String)
    (hpre : ∀ x ∈ pre, ∀ t, (beh x t).error = none)
    (ha : ∀ t, (beh a t).error = some err) (post : List α) (fuel : Nat)
    (s : LuaInterjector α) (hq : s.interjections = pre ++ a :: post)
    (hfuel : pre.length < fuel) :
    ∃ r, drain beh fuel s = some r ∧ r.exit = .interjectionError err ∧
      r.invoked = pre ++ [a] ∧ r.state.interjections = post ++ r.enqueued := by
  induction pre generalizing post fuel s with
  | nil =>
    obtain ⟨n, rfl⟩ : ∃ n, fuel = n + 1 := ⟨fuel - 1, by simp at hfuel; omega⟩
    unfold drain
    simp only [List.nil_append] at hq
    simp only [hq, ha]
    exact ⟨_, rfl, rfl, rfl, by simp [Call.foldl_apply_interjections]⟩
  | cons x pre ih =>
    obtain ⟨n, rfl⟩ : ∃ n, fuel = n + 1 := ⟨fuel - 1, by simp at hfuel; omega⟩
    have hx := hpre x (List.mem_cons_self _ _)
    have hpre2 : ∀ y ∈ pre, ∀ t, (beh y t).error = none :=
      fun y hy => hpre y (List.mem_cons_of_mem _ hy)
    unfold drain
    simp only [List.cons_append] at hq
    simp only [hq, hx]
    obtain ⟨r1, hr1, hexit, hinv, hrest⟩ :=
      ih hpre2
        (post ++ Call.enqueued (beh x { s with interjections := pre ++ a :: post }).calls) n
        ((beh x { s with interjections := pre ++ a :: post }).calls.foldl Call.apply
          { s with interjections := pre ++ a :: post })
        (by simp [Call.foldl_apply_interjections])
        (by simp only [List.length_cons] at hfuel; omega)
    rw [hr1]
    exact ⟨_, rfl, hexit, by simp [hinv], by simp [hrest]⟩

theorem Call.foldl_apply_reverts (calls : List (Call α))
    (hcalls : ∀ c ∈ calls, c = Call.RevertCancel) (s : LuaInterjector α)
    (hc : s.cancelled = false) :
    (calls.foldl Call.apply s).interjections = s.interjections ∧
    (calls.foldl Call.apply s).cancelled = false ∧
    (calls.foldl Call.apply s).L = s.L ∧
    (calls.foldl Call.apply s).messageEncoding = s.messageEncoding ∧
    (calls.foldl Call.apply s).hookDelegate = s.hookDelegate ∧
    Call.enqueued calls = [] := by
  induction calls generalizing s with
  | nil => exact ⟨rfl, hc, rfl, rfl, rfl, rfl⟩
  | cons c cs ih =>
    have hc1 := hcalls c (List.mem_cons_self _ _)
    subst hc1
    obtain ⟨h1, h2, h3, h4, h5, h6⟩ :=
      ih (fun d hd => hcalls d (List.mem_cons_of_mem _ hd)) s.RevertCancel rfl
    exact ⟨h1, h2, h3, h4, h5, by simpa [Call.enqueued] using h6⟩

/-- A drain through a first part `pre` of the queue made of delegates that do not fail
and call nothing but `RevertCancel`: it invokes `pre` and goes on as a drain of the rest
of the queue, with the interpreter, the flag and the encoding as they were. -/
theorem drain_quiet_prefix (beh : Behaviour α) (pre rest : List α)
    (hpre : ∀ x ∈ pre, ∀ t,
      (beh x t).error = none ∧ ∀ c ∈ (beh x t).calls, c = Call.RevertCancel)
    (k : Nat) (s : LuaInterjector α) (hq : s.interjections = pre ++ rest)
    (hc : s.cancelled = false) :
    ∃ s1 : LuaInterjector α, s1.interjections = rest ∧ s1.cancelled = false ∧
      s1.L = s.L ∧ s1.messageEncoding = s.messageEncoding ∧
      s1.hookDelegate = s.hookDelegate ∧
      drain beh (pre.length + k) s
        = (drain beh k s1).map fun r => { r with invoked := pre ++ r.invoked } := by
  induction pre generalizing s with
  | nil =>
    refine ⟨s, by simpa using hq, hc, rfl, rfl, rfl, ?_⟩
    simp
  | cons x pre ih =>
    have hx := hpre x (List.mem_cons_self _ _)
    have hpre2 : ∀ y ∈ pre, ∀ t,
        (beh y t).error = none ∧ ∀ c ∈ (beh y t).calls, c = Call.RevertCancel :=
      fun y hy => hpre y (List.mem_cons_of_mem _ hy)
    obtain ⟨h1, h2, h3, h4, h5, h6⟩ :=
      Call.foldl_apply_reverts (beh x { s with interjections := pre ++ rest }).calls
        (hx _).2 { s with interjections := pre ++ rest } hc
    obtain ⟨s1, g1, g2, g3, g4, g5, g6⟩ :=
      ih hpre2
        ((beh x { s with interjections := pre ++ rest }).calls.foldl Call.apply
          { s with interjections := pre ++ rest }) h1 h2
    refine ⟨s1, g1, g2, g3.trans h3, g4.trans h4, g5.trans h5, ?_⟩
    have hfuel : (x :: pre).length + k = (pre.length + k) + 1 := by
      simp only [List.length_cons]; omega
    rw [hfuel, drain_step beh _ s x (pre ++ rest) (by simpa using hq) (hx _).1, g6, h6,
      Option.map_map]
    rfl

end AbortLemmas

/-! ## Stranded delegates, aborted drains, the return to idle -/

/-- C16, the code at a failing input: on a new interjector (hook disarmed, queue empty,
no cancellation) the delegates 2 and 3 are enqueued and the handler runs; delegate 2
raises an error.  The run has disarmed the hook and invoked delegate 2 only: delegate 3
is still queued, no cancellation is active, and the event mask is 0. -/
theorem pending_stranded_after_failure :
    ((luaH_setnewinterjectionhook sampleState 1 : LuaInterjector Nat).interjections = [] ∧
     (luaH_setnewinterjectionhook sampleState 1 : LuaInterjector Nat).cancelled = false ∧
     (luaH_setnewinterjectionhook sampleState 1 : LuaInterjector Nat).L.hookmask = 0) ∧
    (History.run mixedBehaviour 5 (History.start (luaH_setnewinterjectionhook sampleState 1))
      [.call (.Interject 2), .call (.Interject 3), .hook]).map
        (fun h => (h.invoked, h.state.interjections, h.state.cancelled, h.state.L.hookmask))
      = some ([2], [3], false, 0) ∧
    (((luaH_setnewinterjectionhook sampleState 1 : LuaInterjector Nat).interjectAll
        [2, 3]).hook mixedBehaviour 5).map (fun r => r.exit)
      = some (.interjectionError "boom") := by
  decide

/-- Pending work is not stranded as long as no delegate fails: in every state reached
from a new interjector by `Interject`, `Cancel`, `RevertCancel` and handler runs, with
delegates that may enqueue, cancel and revert but never raise an error, if the queue is
not empty or cancellation is active then the event mask is `LUA_MASKCALL | LUA_MASKRET |
LUA_MASKCOUNT`, which is not 0. -/
theorem pending_armed_without_failure {α : Type} (beh : Behaviour α)
    (hbeh : beh.NeverFails) (L : lua_State) (hookDelegate : lua_Hook)
    (es : List (Event α)) (fuel : Nat) (h : History α)
    (hrun : History.run beh fuel
      (History.start (luaH_setnewinterjectionhook L hookDelegate)) es = some h)
    (hpending : h.state.interjections ≠ [] ∨ h.state.cancelled = true) :
    h.state.L.hookmask = LUA_MASKCALL ||| LUA_MASKRET ||| LUA_MASKCOUNT ∧
    h.state.L.hookmask ≠ 0 := by
  have key : ∀ (es : List (Event α)) (h0 h : History α),
      ((h0.state.interjections ≠ [] ∨ h0.state.cancelled = true) →
        h0.state.L.hookmask = LUA_MASKCALL ||| LUA_MASKRET ||| LUA_MASKCOUNT) →
      History.run beh fuel h0 es = some h →
      ((h.state.interjections ≠ [] ∨ h.state.cancelled = true) →
        h.state.L.hookmask = LUA_MASKCALL ||| LUA_MASKRET ||| LUA_MASKCOUNT) := by
    intro es
    induction es with
    | nil =>
      intro h0 h hI hrun
      simp only [History.run, Option.some.injEq] at hrun
      subst hrun
      exact hI
    | cons e es ih =>
      intro h0 h hI hrun
      simp only [History.run, Option.bind_eq_some] at hrun
      obtain ⟨h1, hstep, hrest⟩ := hrun
      refine ih h1 h ?_ hrest
      cases e with
      | call c =>
        simp only [History.step, Option.some.injEq] at hstep
        subst hstep
        cases c with
        | Interject a => exact fun _ => enablehook_mask _
        | Cancel m e => exact fun _ => enablehook_mask _
        | RevertCancel =>
          intro hp
          rcases hp with hp | hp
          · exact hI (Or.inl hp)
          · simp [Call.apply, LuaInterjector.RevertCancel] at hp
      | hook =>
        simp only [History.step, Option.map_eq_some'] at hstep
        obtain ⟨r, hr, rfl⟩ := hstep
        unfold LuaInterjector.hook at hr
        split at hr
        · split at hr <;>
            (simp only [Option.some.injEq] at hr; subst hr; exact hI)
        · rename_i hc
          intro hp
          obtain ⟨-, hq⟩ := drain_returned beh hbeh fuel _ r hr
          rcases hp with hp | hp
          · exact absurd hq hp
          · exact drain_cancelled_armed beh fuel _ r hr
              (fun hc2 => absurd hc2 (by simpa using hc)) hp
  have hm := key es _ h
    (by
      intro hp
      rcases hp with hp | hp
      · exact absurd rfl hp
      · simp [History.start, luaH_setnewinterjectionhook, LuaInterjector.new] at hp)
    hrun hpending
  exact ⟨hm, by rw [hm]; exact armed_ne_zero⟩

/-- Pending work at a concrete input: after `Interject(10)`, a `Cancel`, a handler run
that raises the cancellation error and a `RevertCancel`, delegate 10 is still queued and
the hook is armed. -/
theorem pending_armed_without_failure_witness :
    (History.run inertBehaviour 1 (History.start (luaH_setnewinterjectionhook sampleState 1))
      [.call (.Interject 10), .call (.Cancel (some "stop") (some Encoding.ASCII)), .hook,
       .call .RevertCancel]).map (fun h => (h.state.interjections, h.state.L.hookmask))
      = some ([10], 11) := by
  have hrun : History.run inertBehaviour 1
      (History.start (luaH_setnewinterjectionhook sampleState 1))
      [.call (.Interject 10), .call (.Cancel (some "stop") (some Encoding.ASCII)), .hook,
       .call .RevertCancel]
      = some
        { state := ((((luaH_setnewinterjectionhook sampleState 1).Interject 10).Cancel
            (some "stop") (some Encoding.ASCII)).RevertCancel),
          invoked := [], enqueued := [10] } := rfl
  have hm := (pending_armed_without_failure inertBehaviour (fun _ _ => rfl) sampleState 1
    _ 1 _ hrun (Or.inl (by decide))).1
  rw [hrun, Option.map_some', hm]
  rfl

theorem drain_enqueued_nil {α : Type} (beh : Behaviour α)
    (hbeh : ∀ x t, (beh x t).calls = []) (fuel : Nat) (s : LuaInterjector α)
    (r : HookRun α) (h : drain beh fuel s = some r) : r.enqueued = [] := by
  induction fuel generalizing s r with
  | zero => simp [drain] at h
  | succ n ih =>
    unfold drain at h
    cases hq : s.interjections with
    | nil =>
      rw [hq] at h
      simp only [Option.some.injEq] at h
      subst h
      rfl
    | cons a rest =>
      rw [hq] at h
      simp only at h
      cases he : (beh a { s with interjections := rest }).error with
      | some err =>
        rw [he] at h
        simp only [Option.some.injEq] at h
        subst h
        simp [hbeh, Call.enqueued]
      | none =>
        rw [he] at h
        simp only [Option.map_eq_some'] at h
        obtain ⟨r1, hr1, rfl⟩ := h
        simp [hbeh, Call.enqueued, ih _ r1 hr1]

/-- C17: a failing delegate aborts the drain pass.  With no cancellation active, let the
queue be `pre`, then `a`, then `post`, where the delegates of `pre` do not fail and `a`,
the k-th delegate, raises `err`.  Then a handler run with at least k units of fuel ends
with the error `err` of `a`; the delegates it has dequeued and invoked are `pre` and then
`a`, in order; and the delegates of `post` have not been invoked and are still at the
head of the queue in their original order, followed only by what the invoked delegates
enqueued themselves (nothing, when delegates make no calls on the interjector). -/
theorem hook_aborts_at_failing_delegate {α : Type} (beh : Behaviour α)
    (s : LuaInterjector α) (pre : List α) (a : α) (post : List α) (err : String)
    (hc : s.cancelled = false) (hq : s.interjections = pre ++ a :: post)
    (hpre : ∀ x ∈ pre, ∀ t, (beh x t).error = none)
    (ha : ∀ t, (beh a t).error = some err) (fuel : Nat) (hfuel : pre.length < fuel) :
    ∃ r, s.hook beh fuel = some r ∧ r.exit = .interjectionError err ∧
      r.invoked = pre ++ [a] ∧ r.invoked.length = pre.length + 1 ∧
      r.state.interjections = post ++ r.enqueued ∧
      ((∀ x t, (beh x t).calls = []) → r.state.interjections = post) := by
  obtain ⟨r, hr, hexit, hinv, hrest⟩ :=
    drain_aborts beh pre a err hpre ha post fuel
      { s with L := (luaW_disablehook s.L).1 } hq hfuel
  refine ⟨r, ?_, hexit, hinv, by simp [hinv], hrest, ?_⟩
  · unfold LuaInterjector.hook
    rw [if_neg (by simp [hc])]
    exact hr
  · intro hcalls
    rw [hrest, drain_enqueued_nil beh hcalls fuel _ r hr, List.append_nil]

/-- C17 at a concrete input: with the queue 10, 2, 30, 40, where delegate 2 raises
"boom", the handler run ends with that error having invoked 10 and 2. -/
theorem hook_aborts_at_failing_delegate_witness :
    (((LuaInterjector.new sampleState 1).interjectAll [10, 2, 30, 40]).hook
        mixedBehaviour 2).map (fun r => (r.exit, r.invoked))
      = some (.interjectionError "boom", [10, 2]) := by
  obtain ⟨r, hr, hexit, hinv, -⟩ :=
    hook_aborts_at_failing_delegate mixedBehaviour
      ((LuaInterjector.new sampleState 1).interjectAll [10, 2, 30, 40])
      [10] 2 [30, 40] "boom" rfl rfl
      (by intro x hx t; simp only [List.mem_singleton] at hx; subst hx; rfl)
      (fun _ => rfl) 2 (by decide)
  rw [hr, Option.map_some', hexit, hinv]
  rfl

/-- C18: the handler returns the interjector to idle.  In every state with no
cancellation active whose queued delegates do not fail, interject or cancel, one handler
run with more fuel than queued delegates returns normally, having invoked every queued
delegate in order; afterwards the event mask is 0, the queue is empty and cancellation
is still inactive, and of the interpreter only the event mask has changed. -/
theorem hook_returns_to_idle {α : Type} (beh : Behaviour α) (s : LuaInterjector α)
    (hc : s.cancelled = false)
    (hq : ∀ a ∈ s.interjections, ∀ t,
      (beh a t).error = none ∧ ∀ c ∈ (beh a t).calls, c = Call.RevertCancel)
    (fuel : Nat) (hfuel : s.interjections.length < fuel) :
    ∃ r, s.hook beh fuel = some r ∧ r.exit = .returned ∧ r.invoked = s.interjections ∧
      r.state.L.hookmask = 0 ∧ r.state.interjections = [] ∧ r.state.cancelled = false ∧
      r.state.L = (luaW_disablehook s.L).1 := by
  obtain ⟨k, hk⟩ : ∃ k, fuel = s.interjections.length + (k + 1) :=
    ⟨fuel - s.interjections.length - 1, by omega⟩
  obtain ⟨s1, g1, g2, g3, -, -, g6⟩ :=
    drain_quiet_prefix beh s.interjections [] hq (k + 1)
      { s with L := (luaW_disablehook s.L).1 } (by simp) hc
  have hlast : drain beh (k + 1) s1
      = some { exit := .returned, invoked := [], enqueued := [], state := s1 } := by
    unfold drain
    simp [g1]
  refine ⟨{ exit := .returned, invoked := s.interjections ++ [], enqueued := [],
            state := s1 }, ?_, rfl, by simp, ?_, g1, g2, g3⟩
  · unfold LuaInterjector.hook
    rw [if_neg (by simp [hc]), hk, g6, hlast]
    rfl
  · show s1.L.hookmask = 0
    rw [g3]
    rfl

/-- C18 at a concrete input: two queued delegates that only work on the value stack; the
handler run invokes both and leaves the queue empty, the mask 0 and no cancellation. -/
theorem hook_returns_to_idle_witness :
    (((LuaInterjector.new sampleState 1).interjectAll [10, 20]).hook inertBehaviour 3).map
      (fun r => (r.invoked, r.state.interjections, r.state.cancelled, r.state.L.hookmask))
      = some ([10, 20], [], false, 0) := by
  obtain ⟨r, hr, -, hinv, hm, hq, hc, -⟩ :=
    hook_returns_to_idle inertBehaviour
      ((LuaInterjector.new sampleState 1).interjectAll [10, 20]) rfl
      (fun _ _ _ => ⟨rfl, by simp [inertBehaviour]⟩) 3 (by decide)
  rw [hr, Option.map_some', hinv, hm, hq, hc]
  rfl

/-! ## `Interject` during a drain, persistent cancellation -/

/-- A drain of the queue `pre`, `a`, `post` in which `a` calls `Interject(b)` and the
other delegates, `b` included, make no calls and do not fail: with enough fuel it
returns, having invoked `pre`, `a`, `post` and then `b`, with the hook armed. -/
theorem drain_interjecting {α : Type} (beh : Behaviour α) (pre : List α) (a : α)
    (post : List α) (b : α)
    (hplain : ∀ x ∈ pre ++ post ++ [b], ∀ t, (beh x t).calls = [] ∧ (beh x t).error = none)
    (ha : ∀ t, (beh a t).calls = [Call.Interject b] ∧ (beh a t).error = none)
    (s : LuaInterjector α) (hq : s.interjections = pre ++ a :: post)
    (hc : s.cancelled = false) (fuel : Nat) (hfuel : pre.length + post.length + 2 < fuel) :
    ∃ r, drain beh fuel s = some r ∧ r.exit = .returned ∧
      r.invoked = pre ++ a :: post ++ [b] ∧ r.enqueued = [b] ∧
      r.state.interjections = [] ∧ r.state.cancelled = false ∧
      r.state.L.hookmask = LUA_MASKCALL ||| LUA_MASKRET ||| LUA_MASKCOUNT := by
  have hquiet : ∀ l : List α, (∀ x ∈ l, x ∈ pre ++ post ++ [b]) → ∀ x ∈ l, ∀ t,
      (beh x t).error = none ∧ ∀ c ∈ (beh x t).calls, c = Call.RevertCancel := by
    intro l hl x hx t
    refine ⟨(hplain x (hl x hx) t).2, ?_⟩
    rw [(hplain x (hl x hx) t).1]
    intro c hcmem
    simp at hcmem
  obtain ⟨j, hj⟩ : ∃ j, fuel = pre.length + (((post ++ [b]).length + (j + 1)) + 1) := by
    refine ⟨fuel - pre.length - post.length - 3, ?_⟩
    simp only [List.length_append, List.length_singleton]
    omega
  obtain ⟨s1, g1, g2, g3, -, -, g6⟩ :=
    drain_quiet_prefix beh pre (a :: post)
      (hquiet pre (fun x hx => by simp [hx])) (((post ++ [b]).length + (j + 1)) + 1) s hq hc
  have hstep := drain_step beh ((post ++ [b]).length + (j + 1)) s1 a post g1 (ha _).2
  rw [(ha _).1] at hstep
  simp only [List.foldl_cons, List.foldl_nil, Call.apply] at hstep
  obtain ⟨s3, k1, k2, k3, -, -, k6⟩ :=
    drain_quiet_prefix beh (post ++ [b]) []
      (hquiet (post ++ [b]) (fun x hx => by
        simp only [List.mem_append, List.mem_singleton] at hx ⊢
        rcases hx with hx | hx
        · exact Or.inl (Or.inr hx)
        · exact Or.inr hx)) (j + 1)
      (({ s1 with interjections := post } : LuaInterjector α).Interject b)
      (by simp [LuaInterjector.Interject]) g2
  have hlast : drain beh (j + 1) s3
      = some { exit := .returned, invoked := [], enqueued := [], state := s3 } := by
    conv_lhs => unfold drain
    simp [k1]
  rw [hj, g6, hstep, k6, hlast]
  refine ⟨_, rfl, rfl, by simp, by simp [Call.enqueued], k1, k2, ?_⟩
  show s3.L.hookmask = _
  rw [k3]
  exact enablehook_mask _

/-- C19: `Interject` during a drain.  In a state with no cancellation active:
(1) whenever a handler run returns, every delegate `b` that an invoked delegate `a`
enqueued through `Interject(b)` has been invoked within that same run, after every
delegate that was queued when the run began (the delegates invoked are the initial queue
followed, in enqueue order, by those enqueued during the run); the queue is empty and the
hook is armed, the initial disarming being overridden;
(2) for a queue `pre`, `a`, `post` in which `a` calls `Interject(b)` and the other
delegates, `b` included, neither fail nor call back, a run with enough fuel does return,
having invoked `pre`, `a`, `post`, `b` in this order, with the hook armed. -/
theorem hook_interject_during_drain {α : Type} (beh : Behaviour α) (s : LuaInterjector α)
    (hc : s.cancelled = false) :
    (∀ fuel r a b, s.hook beh fuel = some r → r.exit = .returned → a ∈ r.invoked →
        (∀ t, Call.Interject b ∈ (beh a t).calls) →
        b ∈ r.enqueued ∧ r.invoked = s.interjections ++ r.enqueued ∧
        r.state.interjections = [] ∧
        r.state.L.hookmask = LUA_MASKCALL ||| LUA_MASKRET ||| LUA_MASKCOUNT ∧
        r.state.L.hookmask ≠ 0) ∧
    (∀ pre a post b, s.interjections = pre ++ a :: post →
        (∀ x ∈ pre ++ post ++ [b], ∀ t, (beh x t).calls = [] ∧ (beh x t).error = none) →
        (∀ t, (beh a t).calls = [Call.Interject b] ∧ (beh a t).error = none) →
        ∀ fuel, pre.length + post.length + 2 < fuel →
        ∃ r, s.hook beh fuel = some r ∧ r.exit = .returned ∧
          r.invoked = pre ++ a :: post ++ [b] ∧ r.state.interjections = [] ∧
          r.state.L.hookmask = LUA_MASKCALL ||| LUA_MASKRET ||| LUA_MASKCOUNT ∧
          r.state.L.hookmask ≠ 0) := by
  constructor
  · intro fuel r a b hr hexit ha hab
    have hcons := hook_conservation beh fuel s r hr
    unfold LuaInterjector.hook at hr
    rw [if_neg (by simp [hc])] at hr
    have hq : r.state.interjections = [] := by
      rcases drain_exit beh fuel _ r hr with h | ⟨err, h⟩
      · exact h.2
      · rw [h] at hexit
        simp at hexit
    have hb := drain_mem_enqueued beh fuel _ r hr a b ha hab
    have hm := drain_enqueued_armed beh fuel _ r hr (List.ne_nil_of_mem hb)
    refine ⟨hb, ?_, hq, hm, by rw [hm]; exact armed_ne_zero⟩
    simpa [hq] using hcons
  · intro pre a post b hq hplain ha fuel hfuel
    obtain ⟨r, hr, hexit, hinv, -, hq2, -, hm⟩ :=
      drain_interjecting beh pre a post b hplain ha
        { s with L := (luaW_disablehook s.L).1 } hq hc fuel hfuel
    refine ⟨r, ?_, hexit, hinv, hq2, hm, by rw [hm]; exact armed_ne_zero⟩
    unfold LuaInterjector.hook
    rw [if_neg (by simp [hc])]
    exact hr

/-- C19 at a concrete input: with the queue 10, 1, 30, where delegate 1 calls
`Interject(5)`, the handler run invokes 10, 1, 30 and then 5 and returns with the event
mask 11. -/
theorem hook_interject_during_drain_witness :
    (((LuaInterjector.new sampleState 1).interjectAll [10, 1, 30]).hook
        mixedBehaviour 5).map (fun r => (r.exit, r.invoked, r.state.L.hookmask))
      = some (.returned, [10, 1, 30, 5], 11) := by
  obtain ⟨r, hr, hexit, hinv, -, hm, -⟩ :=
    (hook_interject_during_drain mixedBehaviour
      ((LuaInterjector.new sampleState 1).interjectAll [10, 1, 30]) rfl).2
      [10] 1 [30] 5 rfl
      (by
        intro x hx t
        simp only [List.mem_append, List.mem_singleton] at hx
        rcases hx with (hx | hx) | hx <;> subst hx <;> exact ⟨rfl, rfl⟩)
      (fun _ => ⟨rfl, rfl⟩) 5 (by decide)
  rw [hr, Option.map_some', hexit, hinv, hm]
  rfl

/-- C20, as stated, fails: a persisting cancellation whose handler runs never raise the
cancellation error.  After `Cancel("stop", nullptr)` on an interjector with two queued
delegates, two handler runs leave the flag, the message, the encoding, the queue and the
event mask as they were, and the run after them, like the first, ends in the
`NullReferenceException` thrown by `toCString`, not in a call of `luaL_error`. -/
theorem cancellation_null_encoding_persists :
    (History.run inertBehaviour 3
      (History.start (((LuaInterjector.new sampleState 1 : LuaInterjector Nat).interjectAll
        [10, 20]).Cancel (some "stop") none))
      (List.replicate 2 .hook)).map
        (fun h => (h.state.cancelled, h.state.message, h.state.interjections,
          h.state.L.hookmask))
      = some (true, some "stop", [10, 20], 11) ∧
    (History.run inertBehaviour 3
      (History.start (((LuaInterjector.new sampleState 1 : LuaInterjector Nat).interjectAll
        [10, 20]).Cancel (some "stop") none))
      (List.replicate 2 .hook)).bind
        (fun h => (h.state.hook inertBehaviour 3).map fun r => r.exit)
      = some (.threw .NullReferenceException) ∧
    (∀ fmt,
      (History.run inertBehaviour 3
        (History.start (((LuaInterjector.new sampleState 1 : LuaInterjector Nat).interjectAll
          [10, 20]).Cancel (some "stop") none))
        (List.replicate 2 .hook)).bind
          (fun h => (h.state.hook inertBehaviour 3).map fun r => r.exit)
        ≠ some (.luaL_error fmt)) := by
  have h : (History.run inertBehaviour 3
      (History.start (((LuaInterjector.new sampleState 1 : LuaInterjector Nat).interjectAll
        [10, 20]).Cancel (some "stop") none))
      (List.replicate 2 .hook)).bind
        (fun h => (h.state.hook inertBehaviour 3).map fun r => r.exit)
      = some (.threw .NullReferenceException) := by decide
  refine ⟨by decide, h, ?_⟩
  intro fmt
  rw [h]
  simp

/-- C20, amended: cancellation persists across safepoints.  A handler run in a state with
cancellation active invokes nothing and leaves the whole interjector as it was: the flag,
the stored message and encoding, the queue and the event mask.  Hence after any number
`n` of handler runs the state is still the same, and the run after them ends as fixed by
what `Cancel` stored: with a non-null message `m` and a non-null encoding `e` it raises
the cancellation error again, calling `luaL_error` with the C string of `e.GetBytes(m)`;
with a null message it calls `luaL_error` with `NULL`; with a non-null message and a null
encoding it throws `NullReferenceException`.  Once `RevertCancel` has been called, a
handler run no longer ends in the cancellation branch. -/
theorem cancellation_persists {α : Type} (beh : Behaviour α) (s : LuaInterjector α)
    (hc : s.cancelled = true) (fuel : Nat) :
    (∃ r, s.hook beh fuel = some r ∧ r.state = s ∧ r.state.cancelled = true ∧
      r.state.message = s.message ∧ r.state.messageEncoding = s.messageEncoding ∧
      r.state.interjections = s.interjections ∧ r.state.L.hookmask = s.L.hookmask ∧
      r.invoked = []) ∧
    (∀ n, History.run beh fuel (History.start s) (List.replicate n .hook)
      = some (History.start s)) ∧
    (∀ n m e, s.message = some m → s.messageEncoding = some e →
      (History.run beh fuel (History.start s) (List.replicate n .hook)).bind
        (fun h => (h.state.hook beh fuel).map fun r => r.exit)
      = some (.luaL_error (some ((e.GetBytes m).takeWhile fun b => b != 0)))) ∧
    (∀ n, s.message = none →
      (History.run beh fuel (History.start s) (List.replicate n .hook)).bind
        (fun h => (h.state.hook beh fuel).map fun r => r.exit)
      = some (.luaL_error none)) ∧
    (∀ n m, s.message = some m → s.messageEncoding = none →
      (History.run beh fuel (History.start s) (List.replicate n .hook)).bind
        (fun h => (h.state.hook beh fuel).map fun r => r.exit)
      = some (.threw .NullReferenceException)) ∧
    (∀ r, s.RevertCancel.hook beh fuel = some r →
      (∀ fmt, r.exit ≠ .luaL_error fmt) ∧ ∀ ex, r.exit ≠ .threw ex) := by
  obtain ⟨r, hr, hinv, henq, hst, h1, h2, h3⟩ := hook_cancelled_run beh fuel s hc
  have hrep : ∀ n, History.run beh fuel (History.start s) (List.replicate n .hook)
      = some (History.start s) := by
    intro n
    induction n with
    | zero => rfl
    | succ n ih =>
      simp only [List.replicate_succ, History.run, History.step, History.start, hr,
        Option.map_some', Option.some_bind, hst, hinv, henq, List.append_nil]
      exact ih
  have hnext : ∀ n, (History.run beh fuel (History.start s) (List.replicate n .hook)).bind
      (fun h => (h.state.hook beh fuel).map fun r => r.exit) = some r.exit := by
    intro n
    rw [hrep n]
    simp only [Option.some_bind, History.start, hr, Option.map_some']
  refine ⟨⟨r, hr, hst, by rw [hst, hc], by rw [hst], by rw [hst], by rw [hst],
    by rw [hst], hinv⟩, hrep, ?_, ?_, ?_, ?_⟩
  · intro n m e hm he
    rw [hnext n, h1 m e hm he]
  · intro n hm
    rw [hnext n, h2 hm]
  · intro n m hm he
    rw [hnext n, h3 m hm he]
  · intro r2 hr2
    unfold LuaInterjector.hook at hr2
    rw [if_neg (by simp [LuaInterjector.RevertCancel])] at hr2
    rcases drain_exit beh fuel _ r2 hr2 with h | ⟨err, h⟩
    · rw [h.1]; exact ⟨by simp, by simp⟩
    · rw [h]; exact ⟨by simp, by simp⟩

/-- C20, amended, at a concrete input: after `Cancel("stop", ASCII)` on an interjector
with two queued delegates, three handler runs leave the flag set, the message stored,
both delegates queued and the event mask 11, and the fourth run calls `luaL_error` with
the bytes of "stop" again. -/
theorem cancellation_persists_witness :
    (History.run inertBehaviour 0
      (History.start ((((LuaInterjector.new sampleState 1).interjectAll [10, 20]).Cancel
        (some "stop") (some Encoding.ASCII))))
      (List.replicate 3 .hook)).map
        (fun h => (h.state.cancelled, h.state.message, h.state.interjections,
          h.state.L.hookmask))
      = some (true, some "stop", [10, 20], 11) ∧
    (History.run inertBehaviour 0
      (History.start ((((LuaInterjector.new sampleState 1).interjectAll [10, 20]).Cancel
        (some "stop") (some Encoding.ASCII))))
      (List.replicate 3 .hook)).bind
        (fun h => (h.state.hook inertBehaviour 0).map fun r => r.exit)
      = some (.luaL_error (some [115, 116, 111, 112])) := by
  obtain ⟨-, hrep, hexit, -⟩ := cancellation_persists inertBehaviour
    ((((LuaInterjector.new sampleState 1).interjectAll [10, 20]).Cancel
        (some "stop") (some Encoding.ASCII))) rfl 0
  refine ⟨by rw [hrep 3]; rfl, ?_⟩
  rw [hexit 3 "stop" Encoding.ASCII rfl rfl]
  decide

/-! ## Resizes and allocation failures -/

/-- C21, as stated, fails: `o <= c + n` does not make the counter the exact integer
`c + n - o`.  On a 64-bit platform, with the counter at `2 ^ 64 - 1`, the resize of a
block from 8 to 16 bytes leaves the counter at 7, while `c + n - o` is `2 ^ 64 + 7`. -/
theorem resize_counter_wraps :
    (8 : Int) ≤ ((2 ^ 64 - 1 : Nat) : Int) + 16 ∧
    (LuaAllocTracker_alloc 64 (some 8192)
      { ud := { _allocated := 2 ^ 64 - 1 }, heap := { blocks := [(4096, 8)] } }
      4096 8 16).1.ud.Allocated = 7 ∧
    (((LuaAllocTracker_alloc 64 (some 8192)
      { ud := { _allocated := 2 ^ 64 - 1 }, heap := { blocks := [(4096, 8)] } }
      4096 8 16).1.ud.Allocated : Nat) : Int) ≠ ((2 ^ 64 - 1 : Nat) : Int) + 16 - 8 := by
  decide

/-- C21, amended: for every counter value `c` and every call of `LuaAllocTracker_alloc`
with a non-null pointer, old size `o` and new size `n`, the counter afterwards is
`c + n - o` computed in `size_t` arithmetic, that is, the residue of the integer
`c + n - o` modulo `2 ^ w`; it is the exact integer `c + n - o` if and only if
`o <= c + n` and `c + n - o < 2 ^ w`, whether the block grows or shrinks. -/
theorem resize_accounting (w : Nat) (answer : Option Nat) (st : AllocState)
    (ptr o n : Nat) (hptr : ptr ≠ 0) :
    (LuaAllocTracker_alloc w answer st ptr o n).1.ud.Allocated
      = size_t w ((st.ud._allocated : Int) + n - o) ∧
    (((LuaAllocTracker_alloc w answer st ptr o n).1.ud.Allocated : Nat) : Int)
      = ((st.ud._allocated : Int) + n - o) % (2 ^ w : Int) ∧
    ((((LuaAllocTracker_alloc w answer st ptr o n).1.ud.Allocated : Nat) : Int)
        = (st.ud._allocated : Int) + n - o ↔
      (o ≤ st.ud._allocated + n ∧ st.ud._allocated + n - o < 2 ^ w)) ∧
    (o ≤ st.ud._allocated + n → st.ud._allocated + n - o < 2 ^ w →
      (LuaAllocTracker_alloc w answer st ptr o n).1.ud.Allocated
        = st.ud._allocated + n - o) := by
  have hcount : (LuaAllocTracker_alloc w answer st ptr o n).1.ud.Allocated
      = size_t w ((st.ud._allocated : Int) + n - o) :=
    alloc_counter_nonnull w answer st ptr o n hptr
  have hpos : (0 : Int) < 2 ^ w := by positivity
  have hiff : ((st.ud._allocated : Int) + n - o) % (2 ^ w : Int)
        = (st.ud._allocated : Int) + n - o ↔
      (o ≤ st.ud._allocated + n ∧ st.ud._allocated + n - o < 2 ^ w) := by
    constructor
    · intro h
      have h1 := Int.emod_nonneg ((st.ud._allocated : Int) + n - o) (ne_of_gt hpos)
      have h2 := Int.emod_lt_of_pos ((st.ud._allocated : Int) + n - o) hpos
      rw [h] at h1 h2
      have h3 : o ≤ st.ud._allocated + n := by omega
      refine ⟨h3, ?_⟩
      have h4 : ((st.ud._allocated + n - o : Nat) : Int) < ((2 ^ w : Nat) : Int) := by
        push_cast [h3]
        exact h2
      exact_mod_cast h4
    · rintro ⟨h3, h4⟩
      apply Int.emod_eq_of_lt
      · omega
      · have h5 : ((st.ud._allocated + n - o : Nat) : Int) < ((2 ^ w : Nat) : Int) := by
          exact_mod_cast h4
        push_cast [h3] at h5
        exact h5
  refine ⟨hcount, ?_, ?_, ?_⟩
  · rw [hcount, size_t_cast]
  · rw [hcount, size_t_cast]
    exact hiff
  · intro h3 h4
    have h6 := hiff.2 ⟨h3, h4⟩
    have h7 : (((LuaAllocTracker_alloc w answer st ptr o n).1.ud.Allocated : Nat) : Int)
        = ((st.ud._allocated + n - o : Nat) : Int) := by
      rw [hcount, size_t_cast, h6]
      push_cast [h3]
      rfl
    exact_mod_cast h7

/-- C21, amended, at a concrete input: a live block grows from 8 to 32 bytes, then
shrinks to 4 bytes; the counter goes from 100 to 124 and then to 96. -/
theorem resize_accounting_witness :
    (LuaAllocTracker_alloc 64 (some 8192)
      { ud := { _allocated := 100 }, heap := { blocks := [(4096, 8)] } }
      4096 8 32).1.ud.Allocated = 124 ∧
    (LuaAllocTracker_alloc 64 (some 4096)
      { ud := { _allocated := 124 }, heap := { blocks := [(8192, 32)] } }
      8192 32 4).1.ud.Allocated = 96 :=
  ⟨(resize_accounting 64 (some 8192)
      { ud := { _allocated := 100 }, heap := { blocks := [(4096, 8)] } }
      4096 8 32 (by decide)).2.2.2 (by decide) (by decide),
   (resize_accounting 64 (some 4096)
      { ud := { _allocated := 124 }, heap := { blocks := [(8192, 32)] } }
      8192 32 4 (by decide)).2.2.2 (by decide) (by decide)⟩

/-- C22: the tracker neither masks nor retries an allocation failure.  For every call
of `LuaAllocTracker_alloc` with a non-zero new size, the pointer returned and the heap
left are exactly those of the one call `realloc(ptr, nsize)`: null with the heap
untouched when `realloc` fails, the address `realloc` chose when it succeeds, and so null
if and only if `realloc` returned null.  With a zero new size the block at `ptr` is
released by `free` (it is no longer live) and null is returned. -/
theorem alloc_returns_realloc (w : Nat) (answer : Option Nat) (st : AllocState)
    (ptr osize nsize : Nat) :
    (nsize ≠ 0 →
      (LuaAllocTracker_alloc w answer st ptr osize nsize).2
        = (realloc st.heap answer ptr nsize).2 ∧
      (LuaAllocTracker_alloc w answer st ptr osize nsize).1.heap
        = (realloc st.heap answer ptr nsize).1 ∧
      ((LuaAllocTracker_alloc w answer st ptr osize nsize).2 = 0
        ↔ (realloc st.heap answer ptr nsize).2 = 0) ∧
      (answer = none →
        (LuaAllocTracker_alloc w answer st ptr osize nsize).2 = 0 ∧
        (LuaAllocTracker_alloc w answer st ptr osize nsize).1.heap = st.heap) ∧
      (∀ q, answer = some q →
        (LuaAllocTracker_alloc w answer st ptr osize nsize).2 = q ∧
        (q, nsize) ∈ (LuaAllocTracker_alloc w answer st ptr osize nsize).1.heap.blocks)) ∧
    (nsize = 0 →
      (LuaAllocTracker_alloc w answer st ptr osize nsize).2 = 0 ∧
      (LuaAllocTracker_alloc w answer st ptr osize nsize).1.heap = free st.heap ptr ∧
      (ptr ≠ 0 →
        ptr ∉ (LuaAllocTracker_alloc w answer st ptr osize nsize).1.heap.addresses)) := by
  constructor
  · intro hn
    refine ⟨by simp [LuaAllocTracker_alloc, hn], by simp [LuaAllocTracker_alloc, hn],
      by simp [LuaAllocTracker_alloc, hn], ?_, ?_⟩
    · intro ha
      subst ha
      simp [LuaAllocTracker_alloc, hn, realloc]
    · intro q ha
      subst ha
      simp [LuaAllocTracker_alloc, hn, realloc]
  · intro hn
    subst hn
    refine ⟨by simp [LuaAllocTracker_alloc], by simp [LuaAllocTracker_alloc], ?_⟩
    intro hptr
    simp [LuaAllocTracker_alloc, free, hptr, Heap.addresses]

/-! ## Termination of the drain loop -/

section RoundsLemmas

variable {α : Type}

/-- The drain loop with fuel `k` is its first `k` rounds, when they end the loop. -/
theorem drain_eq_rounds (beh : Behaviour α) (k : Nat) (s : LuaInterjector α) :
    drain beh k s = (rounds beh k s).ended.map fun e =>
      { exit := e, invoked := (rounds beh k s).invoked,
        enqueued := (rounds beh k s).enqueued, state := (rounds beh k s).state } := by
  induction k generalizing s with
  | zero => simp [drain, rounds]
  | succ n ih =>
    unfold drain rounds
    cases hq : s.interjections with
    | nil => simp
    | cons a rest =>
      simp only
      cases he : (beh a { s with interjections := rest }).error with
      | some err => simp
      | none =>
        simp only [ih]
        cases (rounds beh n ((beh a { s with interjections := rest }).calls.foldl Call.apply
          { s with interjections := rest })).ended <;> simp

/-- Conservation of the queue after any number of rounds. -/
theorem rounds_conservation (beh : Behaviour α) (k : Nat) (s : LuaInterjector α) :
    (rounds beh k s).invoked ++ (rounds beh k s).state.interjections
      = s.interjections ++ (rounds beh k s).enqueued := by
  induction k generalizing s with
  | zero => simp [rounds]
  | succ n ih =>
    unfold rounds
    cases hq : s.interjections with
    | nil => simp [hq]
    | cons a rest =>
      simp only
      cases he : (beh a { s with interjections := rest }).error with
      | some err => simp [Call.foldl_apply_interjections]
      | none =>
        simp only [List.cons_append, ih, Call.foldl_apply_interjections]
        simp

/-- While the loop is running, every round has invoked one delegate. -/
theorem rounds_running (beh : Behaviour α) (k : Nat) (s : LuaInterjector α)
    (h : (rounds beh k s).ended = none) : (rounds beh k s).invoked.length = k := by
  induction k generalizing s with
  | zero => simp [rounds]
  | succ n ih =>
    unfold rounds at h ⊢
    cases hq : s.interjections with
    | nil => simp [hq] at h
    | cons a rest =>
      simp only [hq] at h ⊢
      cases he : (beh a { s with interjections := rest }).error with
      | some err => simp [he] at h
      | none =>
        simp only [he] at h ⊢
        simp only [List.length_cons, ih _ h]

/-- More fuel does not change the result of a drain that ended. -/
theorem drain_mono (beh : Behaviour α) (k : Nat) (s : LuaInterjector α) (r : HookRun α)
    (h : drain beh k s = some r) (j : Nat) (hj : k ≤ j) : drain beh j s = some r := by
  induction k generalizing s r j with
  | zero => simp [drain] at h
  | succ n ih =>
    obtain ⟨i, rfl⟩ : ∃ i, j = i + 1 := ⟨j - 1, by omega⟩
    unfold drain at h ⊢
    cases hq : s.interjections with
    | nil => simpa [hq] using h
    | cons a rest =>
      simp only [hq] at h ⊢
      cases he : (beh a { s with interjections := rest }).error with
      | some err => simpa [he] using h
      | none =>
        simp only [he, Option.map_eq_some'] at h ⊢
        obtain ⟨r1, hr1, rfl⟩ := h
        exact ⟨r1, ih _ r1 hr1 i (by omega), rfl⟩

/-- A drain that returned used one round for each delegate invoked and one more. -/
theorem drain_invoked_lt (beh : Behaviour α) (k : Nat) (s : LuaInterjector α)
    (r : HookRun α) (h : drain beh k s = some r) (hexit : r.exit = .returned) :
    r.invoked.length < k := by
  induction k generalizing s r with
  | zero => simp [drain] at h
  | succ n ih =>
    unfold drain at h
    cases hq : s.interjections with
    | nil =>
      simp only [hq, Option.some.injEq] at h
      subst h
      simp
    | cons a rest =>
      simp only [hq] at h
      cases he : (beh a { s with interjections := rest }).error with
      | some err =>
        simp only [he, Option.some.injEq] at h
        subst h
        simp at hexit
      | none =>
        simp only [he, Option.map_eq_some'] at h
        obtain ⟨r1, hr1, rfl⟩ := h
        have := ih _ r1 hr1 hexit
        simp only [List.length_cons]
        omega

/-- A drain that returned does so with any fuel above the number of delegates invoked. -/
theorem drain_least_fuel (beh : Behaviour α) (k : Nat) (s : LuaInterjector α)
    (r : HookRun α) (h : drain beh k s = some r) (hexit : r.exit = .returned) (j : Nat)
    (hj : r.invoked.length < j) : drain beh j s = some r := by
  induction k generalizing s r j with
  | zero => simp [drain] at h
  | succ n ih =>
    obtain ⟨i, rfl⟩ : ∃ i, j = i + 1 := ⟨j - 1, by omega⟩
    unfold drain at h ⊢
    cases hq : s.interjections with
    | nil => simpa [hq] using h
    | cons a rest =>
      simp only [hq] at h ⊢
      cases he : (beh a { s with interjections := rest }).error with
      | some err => simpa [he] using h
      | none =>
        simp only [he, Option.map_eq_some'] at h ⊢
        obtain ⟨r1, hr1, rfl⟩ := h
        refine ⟨r1, ih _ r1 hr1 hexit i ?_, rfl⟩
        simp only [List.length_cons] at hj
        omega

/-- Once the loop has ended, further rounds change nothing. -/
theorem rounds_stable (beh : Behaviour α) (k : Nat) (s : LuaInterjector α)
    (h : (rounds beh k s).ended.isSome = true) (j : Nat) (hj : k ≤ j) :
    rounds beh j s = rounds beh k s := by
  induction k generalizing s j with
  | zero => simp [rounds] at h
  | succ n ih =>
    obtain ⟨i, rfl⟩ : ∃ i, j = i + 1 := ⟨j - 1, by omega⟩
    unfold rounds at h ⊢
    cases hq : s.interjections with
    | nil => rfl
    | cons a rest =>
      simp only [hq] at h ⊢
      cases he : (beh a { s with interjections := rest }).error with
      | some err => rfl
      | none =>
        simp only [he] at h ⊢
        rw [ih _ h i (by omega)]

/-- When the delegates never fail and never have enqueued more than `m` delegates, the
drain of a queue of `n` delegates ends within `n + m + 1` rounds. -/
theorem drain_of_bounded (beh : Behaviour α) (s : LuaInterjector α) (m : Nat)
    (hm : ∀ k, (rounds beh k s).enqueued.length ≤ m) :
    ∃ r, drain beh (s.interjections.length + m + 1) s = some r ∧
      r.enqueued.length ≤ m := by
  cases hended : (rounds beh (s.interjections.length + m + 1) s).ended with
  | none =>
    exfalso
    have h1 := rounds_running beh _ s hended
    have h2 := congrArg List.length (rounds_conservation beh (s.interjections.length + m + 1) s)
    have h3 := hm (s.interjections.length + m + 1)
    simp only [List.length_append] at h2
    omega
  | some e =>
    refine ⟨_, by rw [drain_eq_rounds, hended]; rfl, hm _⟩

/-- A queue that is not empty stays so when every delegate invoked enqueues itself again:
the drain loop does not end, whatever the fuel. -/
theorem drain_loopBehaviour (fuel : Nat) (s : LuaInterjector Nat)
    (hq : s.interjections ≠ []) : drain loopBehaviour fuel s = none := by
  induction fuel generalizing s with
  | zero => rfl
  | succ n ih =>
    unfold drain
    cases hs : s.interjections with
    | nil => exact absurd hs hq
    | cons a rest =>
      simp only [loopBehaviour, List.foldl, Call.apply]
      rw [ih _ (by simp [LuaInterjector.Interject])]
      rfl

/-- The handler run with no cancellation active and delegates that never fail and never
have enqueued more than `m` delegates: the run is produced exactly by fuel above the
number of delegates it invokes, returns with the queue empty and has invoked the queued
delegates followed by those enqueued. -/
theorem hook_of_bounded (beh : Behaviour α) (hbeh : beh.NeverFails)
    (s : LuaInterjector α) (hc : s.cancelled = false) (m : Nat)
    (hm : ∀ k,
      (rounds beh k { s with L := (luaW_disablehook s.L).1 }).enqueued.length ≤ m) :
    ∃ r, (∀ fuel, s.hook beh fuel
        = if s.interjections.length + r.enqueued.length < fuel then some r else none) ∧
      r.exit = .returned ∧ r.state.interjections = [] ∧
      r.invoked = s.interjections ++ r.enqueued ∧ r.enqueued.length ≤ m := by
  obtain ⟨r, hr, hle⟩ := drain_of_bounded beh { s with L := (luaW_disablehook s.L).1 } m hm
  obtain ⟨hexit, hq⟩ := drain_returned beh hbeh _ _ r hr
  have hcons := drain_conservation beh _ _ r hr
  simp only [hq, List.append_nil] at hcons
  have hlen : r.invoked.length = s.interjections.length + r.enqueued.length := by
    rw [hcons, List.length_append]
  have hhook : ∀ fuel, s.hook beh fuel
      = drain beh fuel { s with L := (luaW_disablehook s.L).1 } := by
    intro fuel
    unfold LuaInterjector.hook
    rw [if_neg (by simp [hc])]
  refine ⟨r, ?_, hexit, hq, hcons, hle⟩
  intro fuel
  rw [hhook]
  split
  · rename_i hlt
    exact drain_least_fuel beh _ _ r hr hexit fuel (by rw [hlen]; exact hlt)
  · rename_i hge
    cases hd : drain beh fuel { s with L := (luaW_disablehook s.L).1 } with
    | none => rfl
    | some r2 =>
      exfalso
      have h1 := drain_mono beh _ _ r2 hd (max fuel (s.interjections.length + m + 1))
        (le_max_left _ _)
      have h2 := drain_mono beh _ _ r hr (max fuel (s.interjections.length + m + 1))
        (le_max_right _ _)
      rw [h1] at h2
      simp only [Option.some.injEq] at h2
      subst h2
      have h3 := drain_invoked_lt beh _ _ r2 hd hexit
      rw [hlen] at h3
      exact hge h3

end RoundsLemmas

/-- C25: termination of the drain loop.  With no cancellation active and delegates that
never fail, let `n` delegates be queued and let the delegates invoked by the loop never
have enqueued more than `m` further delegates, after however many rounds.  Then the
handler run ends: there is a run `r` that the handler produces with any fuel above the
number of delegates it invokes and with no less; it returns normally with the queue
empty; the delegates invoked are the `n` queued ones followed by all those enqueued
during the run, so their number is exactly `n` plus the number enqueued, which is at most
`m`, and is `n + m` when `m` delegates were enqueued in total; with `m = 0` exactly the
`n` queued delegates are invoked. -/
theorem drain_terminates {α : Type} (beh : Behaviour α) (hbeh : beh.NeverFails)
    (s : LuaInterjector α) (hc : s.cancelled = false) (m : Nat)
    (hm : ∀ k,
      (rounds beh k { s with L := (luaW_disablehook s.L).1 }).enqueued.length ≤ m) :
    ∃ r, (∀ fuel, s.hook beh fuel
        = if s.interjections.length + r.enqueued.length < fuel then some r else none) ∧
      s.hook beh (s.interjections.length + m + 1) = some r ∧
      r.exit = .returned ∧ r.state.interjections = [] ∧
      r.invoked = s.interjections ++ r.enqueued ∧
      r.invoked.length = s.interjections.length + r.enqueued.length ∧
      r.enqueued.length ≤ m ∧
      (r.enqueued.length = m → r.invoked.length = s.interjections.length + m) ∧
      (m = 0 → r.invoked = s.interjections ∧
        r.invoked.length = s.interjections.length) := by
  obtain ⟨r, hr, hle⟩ := drain_of_bounded beh { s with L := (luaW_disablehook s.L).1 } m hm
  obtain ⟨hexit, hq⟩ := drain_returned beh hbeh _ _ r hr
  have hcons := drain_conservation beh _ _ r hr
  simp only [hq, List.append_nil] at hcons
  have hlen : r.invoked.length = s.interjections.length + r.enqueued.length := by
    rw [hcons, List.length_append]
  have hhook : ∀ fuel, s.hook beh fuel
      = drain beh fuel { s with L := (luaW_disablehook s.L).1 } := by
    intro fuel
    unfold LuaInterjector.hook
    rw [if_neg (by simp [hc])]
  refine ⟨r, ?_, by rw [hhook]; exact hr, hexit, hq, hcons, hlen, hle, ?_, ?_⟩
  · intro fuel
    rw [hhook]
    split
    · rename_i hlt
      exact drain_least_fuel beh _ _ r hr hexit fuel (by rw [hlen]; exact hlt)
    · rename_i hge
      cases hd : drain beh fuel { s with L := (luaW_disablehook s.L).1 } with
      | none => rfl
      | some r2 =>
        exfalso
        have h1 := drain_mono beh _ _ r2 hd (max fuel (s.interjections.length + m + 1))
          (le_max_left _ _)
        have h2 := drain_mono beh _ _ r hr (max fuel (s.interjections.length + m + 1))
          (le_max_right _ _)
        rw [h1] at h2
        simp only [Option.some.injEq] at h2
        subst h2
        have h3 := drain_invoked_lt beh _ _ r2 hd hexit
        rw [hlen] at h3
        exact hge h3
  · intro h
    rw [hlen, h]
  · intro h
    subst h
    have h0 : r.enqueued = [] := List.eq_nil_of_length_eq_zero (by omega)
    rw [hcons, h0, List.append_nil]
    exact ⟨rfl, rfl⟩

/-- C25 at a concrete input: with the queue 10, 1, 30, where delegate 1 calls
`Interject(5)` (so `n = 3`, `m = 1`), the handler run needs 5 units of fuel, invokes the
4 delegates 10, 1, 30, 5 and leaves the queue empty; with 4 units the loop is not done. -/
theorem drain_terminates_witness :
    (((LuaInterjector.new sampleState 1).interjectAll [10, 1, 30]).hook
        relayBehaviour 5).map (fun r => (r.invoked, r.state.interjections))
      = some ([10, 1, 30, 5], []) ∧
    (((LuaInterjector.new sampleState 1).interjectAll [10, 1, 30]).hook
        relayBehaviour 4).map (fun r => r.invoked) = none := by
  have hm : ∀ k, (rounds relayBehaviour k
      { (LuaInterjector.new sampleState 1).interjectAll [10, 1, 30] with
        L := (luaW_disablehook
          ((LuaInterjector.new sampleState 1).interjectAll [10, 1, 30]).L).1 }).enqueued.length
        ≤ 1 := by
    intro k
    by_cases hk : k ≤ 5
    · interval_cases k <;> decide
    · rw [rounds_stable relayBehaviour 5 _ (by decide) k (by omega)]
      decide
  obtain ⟨r, hfuel, h5, -, hq, hinv, -, -, -, -⟩ :=
    drain_terminates relayBehaviour
      (fun a _ => by simp only [relayBehaviour]; split <;> rfl)
      ((LuaInterjector.new sampleState 1).interjectAll [10, 1, 30]) rfl 1 hm
  have h5a : ((LuaInterjector.new sampleState 1).interjectAll [10, 1, 30]).hook
      relayBehaviour 5 = some r := h5
  have henq : r.enqueued = [5] := by
    have h : (((LuaInterjector.new sampleState 1 : LuaInterjector Nat).interjectAll
        [10, 1, 30]).hook relayBehaviour 5).map (fun r => r.enqueued) = some [5] := by
      decide
    rw [h5a] at h
    simpa using h
  refine ⟨by rw [h5a, Option.map_some', hinv, hq, henq]; rfl, ?_⟩
  rw [hfuel 4, henq]
  rfl

/-! ## Reverted cancellation -/

/-- C3, as stated, fails: delegates that do not fail, and a handler run after `Cancel`
and `RevertCancel` that never leaves the queue empty.  With delegate 7 queued, where every
delegate calls `Interject` with itself before it returns, no amount of fuel lets the
handler run end; after every number `k` of rounds the loop is still running and has
invoked `k` delegates. -/
theorem reverted_cancel_drain_never_ends :
    Behaviour.NeverFails loopBehaviour ∧
    (∀ fuel,
      ((((LuaInterjector.new sampleState 1 : LuaInterjector Nat).Interject 7).Cancel
        (some "stop") (some Encoding.ASCII)).RevertCancel).hook loopBehaviour fuel = none) ∧
    (∀ k,
      (rounds loopBehaviour k
        { (((LuaInterjector.new sampleState 1 : LuaInterjector Nat).Interject 7).Cancel
            (some "stop") (some Encoding.ASCII)).RevertCancel with
          L := (luaW_disablehook
            ((((LuaInterjector.new sampleState 1 : LuaInterjector Nat).Interject 7).Cancel
              (some "stop") (some Encoding.ASCII)).RevertCancel).L).1 }).ended = none ∧
      (rounds loopBehaviour k
        { (((LuaInterjector.new sampleState 1 : LuaInterjector Nat).Interject 7).Cancel
            (some "stop") (some Encoding.ASCII)).RevertCancel with
          L := (luaW_disablehook
            ((((LuaInterjector.new sampleState 1 : LuaInterjector Nat).Interject 7).Cancel
              (some "stop") (some Encoding.ASCII)).RevertCancel).L).1 }).invoked.length
        = k) := by
  have hdrain : ∀ fuel, drain loopBehaviour fuel
      { (((LuaInterjector.new sampleState 1 : LuaInterjector Nat).Interject 7).Cancel
            (some "stop") (some Encoding.ASCII)).RevertCancel with
          L := (luaW_disablehook
            ((((LuaInterjector.new sampleState 1 : LuaInterjector Nat).Interject 7).Cancel
              (some "stop") (some Encoding.ASCII)).RevertCancel).L).1 } = none :=
    fun fuel => drain_loopBehaviour fuel _ (by decide)
  have hended : ∀ k, (rounds loopBehaviour k
      { (((LuaInterjector.new sampleState 1 : LuaInterjector Nat).Interject 7).Cancel
            (some "stop") (some Encoding.ASCII)).RevertCancel with
          L := (luaW_disablehook
            ((((LuaInterjector.new sampleState 1 : LuaInterjector Nat).Interject 7).Cancel
              (some "stop") (some Encoding.ASCII)).RevertCancel).L).1 }).ended = none := by
    intro k
    have h := hdrain k
    rw [drain_eq_rounds] at h
    simpa using h
  refine ⟨fun _ _ => rfl, ?_, fun k => ⟨hended k, rounds_running _ k _ (hended k)⟩⟩
  intro fuel
  unfold LuaInterjector.hook
  rw [if_neg (by decide)]
  exact hdrain fuel

/-- C3, amended: a reverted cancellation does not fire.  After `Cancel(message,
encoding)` followed by `RevertCancel()`, in any state and for any message and encoding:
(1) whatever the delegates do, a handler run that ends does not end in the cancellation
branch;
(2) with delegates that never fail and never have enqueued more than `m` further
delegates, the handler run ends: there is a run that the handler produces with any fuel
above the number of delegates it invokes and with no less; it returns normally, having
invoked every queued delegate in queue order and after them the delegates enqueued during
the run, at most `m`, and leaves the queue empty;
(3) with delegates that neither fail nor call back into the interjector, the run with
more fuel than queued delegates returns normally, having invoked exactly the queued
delegates in queue order, and leaves the queue empty and cancellation inactive;
(4) with delegates that merely do not fail, every handler run that ends returns normally
with the queue empty, having invoked the queued delegates, in order, and after them the
delegates enqueued during the run. -/
theorem hook_after_reverted_cancel {α : Type} (beh : Behaviour α) (s : LuaInterjector α)
    (message : Option String) (messageEncoding : Option Encoding) :
    (∀ fuel r, ((s.Cancel message messageEncoding).RevertCancel).hook beh fuel = some r →
        (∀ fmt, r.exit ≠ .luaL_error fmt) ∧ ∀ ex, r.exit ≠ .threw ex) ∧
    (beh.NeverFails → ∀ m,
        (∀ k, (rounds beh k
          { (s.Cancel message messageEncoding).RevertCancel with
            L := (luaW_disablehook
              ((s.Cancel message messageEncoding).RevertCancel).L).1 }).enqueued.length
            ≤ m) →
        ∃ r, (∀ fuel, ((s.Cancel message messageEncoding).RevertCancel).hook beh fuel
              = if s.interjections.length + r.enqueued.length < fuel then some r
                else none) ∧
          r.exit = .returned ∧ r.invoked = s.interjections ++ r.enqueued ∧
          r.enqueued.length ≤ m ∧ r.state.interjections = []) ∧
    (beh.Plain → ∀ fuel, s.interjections.length < fuel →
        ∃ r, ((s.Cancel message messageEncoding).RevertCancel).hook beh fuel = some r ∧
          r.exit = .returned ∧ r.invoked = s.interjections ∧
          r.state.interjections = [] ∧ r.state.cancelled = false) ∧
    (beh.NeverFails → ∀ fuel r,
        ((s.Cancel message messageEncoding).RevertCancel).hook beh fuel = some r →
          r.exit = .returned ∧ r.state.interjections = [] ∧
          r.invoked = s.interjections ++ r.enqueued) := by
  refine ⟨?_, ?_, ?_, ?_⟩
  · intro fuel r hr
    unfold LuaInterjector.hook at hr
    rw [if_neg (by simp [LuaInterjector.RevertCancel])] at hr
    rcases drain_exit beh fuel _ r hr with h | ⟨err, h⟩
    · rw [h.1]; exact ⟨by simp, by simp⟩
    · rw [h]; exact ⟨by simp, by simp⟩
  · intro hbeh m hm
    obtain ⟨r, hfuel, hexit, hq, hinv, hle⟩ :=
      hook_of_bounded beh hbeh ((s.Cancel message messageEncoding).RevertCancel) rfl m hm
    exact ⟨r, hfuel, hexit, hinv, hle, hq⟩
  · intro hbeh fuel hfuel
    unfold LuaInterjector.hook
    simp only [LuaInterjector.RevertCancel, Bool.false_eq_true, if_false]
    rw [drain_plain beh hbeh _ _ (by simpa [LuaInterjector.Cancel] using hfuel)]
    exact ⟨_, rfl, rfl, by simp [LuaInterjector.Cancel], rfl, rfl⟩
  · intro hbeh fuel r hr
    have hcons := hook_conservation beh fuel _ r hr
    unfold LuaInterjector.hook at hr
    simp only [LuaInterjector.RevertCancel, Bool.false_eq_true, if_false] at hr
    obtain ⟨hexit, hq⟩ := drain_returned beh hbeh fuel _ r hr
    refine ⟨hexit, hq, ?_⟩
    simpa [hq, LuaInterjector.Cancel, LuaInterjector.RevertCancel] using hcons

/-- C3, amended, at a concrete input: with the queue 10, 1, 30, where delegate 1 calls
`Interject(5)`, the handler run after `Cancel("stop", ASCII)` and `RevertCancel()` returns
with 5 units of fuel, having invoked 10, 1, 30, 5, and leaves the queue empty; with 4
units the loop is not done. -/
theorem hook_after_reverted_cancel_witness :
    (((((LuaInterjector.new sampleState 1).interjectAll [10, 1, 30]).Cancel (some "stop")
        (some Encoding.ASCII)).RevertCancel).hook relayBehaviour 5).map
      (fun r => (r.exit, r.invoked, r.state.interjections))
      = some (.returned, [10, 1, 30, 5], []) ∧
    (((((LuaInterjector.new sampleState 1).interjectAll [10, 1, 30]).Cancel (some "stop")
        (some Encoding.ASCII)).RevertCancel).hook relayBehaviour 4).map
      (fun r => r.invoked) = none := by
  have hm : ∀ k, (rounds relayBehaviour k
      { (((LuaInterjector.new sampleState 1).interjectAll [10, 1, 30]).Cancel (some "stop")
          (some Encoding.ASCII)).RevertCancel with
        L := (luaW_disablehook
          ((((LuaInterjector.new sampleState 1).interjectAll [10, 1, 30]).Cancel
            (some "stop") (some Encoding.ASCII)).RevertCancel).L).1 }).enqueued.length
        ≤ 1 := by
    intro k
    by_cases hk : k ≤ 5
    · interval_cases k <;> decide
    · rw [rounds_stable relayBehaviour 5 _ (by decide) k (by omega)]
      decide
  obtain ⟨r, hfuel, hexit, hinv, -, hq⟩ :=
    (hook_after_reverted_cancel relayBehaviour
      ((LuaInterjector.new sampleState 1).interjectAll [10, 1, 30]) (some "stop")
      (some Encoding.ASCII)).2.1
      (fun a _ => by simp only [relayBehaviour]; split <;> rfl) 1 hm
  have henq : r.enqueued = [5] := by
    have h : ((((((LuaInterjector.new sampleState 1 : LuaInterjector Nat).interjectAll
        [10, 1, 30]).Cancel (some "stop") (some Encoding.ASCII)).RevertCancel).hook
        relayBehaviour 5).map (fun r => r.enqueued)) = some [5] := by
      decide
    rw [hfuel 5] at h
    split at h
    · simpa using h
    · simp at h
  refine ⟨?_, ?_⟩
  · rw [hfuel 5, henq, if_pos (by decide), Option.map_some', hexit, hinv, hq, henq]
    rfl
  · rw [hfuel 4, henq]
    rfl

/-! ## `luaL_dostring`, `luaL_dofile`, `lua_upvalueindex`, `toCString` -/

/-- C26: `luaL_dostring` and `luaL_dofile` return true exactly when the load does not
return `LUA_OK` or the protected call that follows does not return `LUA_OK`, hence false
exactly when both return `LUA_OK`.  When the load fails the result is true in the state
the load left, whatever the protected call would have done: it is not made.  When the
load succeeds the state is the one the protected call leaves.  (An exception thrown while
the chunk or file name is converted is passed on.) -/
theorem dostring_dofile_result {σ : Type} (api : NativeLua σ) (Default : Encoding)
    (L : σ) (s fn : Option String) (chunkEncoding : Option Encoding) :
    (∀ L1 status, luaL_loadstring api L s chunkEncoding = .ok (L1, status) →
      ∃ L2 b, luaL_dostring api L s chunkEncoding = .ok (L2, b) ∧
        (b = true ↔
          (status ≠ LUA_OK ∨ (lua_pcall api L1 0 LUA_MULTRET 0).2 ≠ LUA_OK)) ∧
        (b = false ↔
          (status = LUA_OK ∧ (lua_pcall api L1 0 LUA_MULTRET 0).2 = LUA_OK)) ∧
        (status ≠ LUA_OK → L2 = L1 ∧
          ∀ k, luaL_dostring { api with lua_pcallk := k } L s chunkEncoding
            = .ok (L1, true)) ∧
        (status = LUA_OK → L2 = (lua_pcall api L1 0 LUA_MULTRET 0).1)) ∧
    (∀ L1 status, luaL_loadfile api Default L fn = .ok (L1, status) →
      ∃ L2 b, luaL_dofile api Default L fn = .ok (L2, b) ∧
        (b = true ↔
          (status ≠ LUA_OK ∨ (lua_pcall api L1 0 LUA_MULTRET 0).2 ≠ LUA_OK)) ∧
        (b = false ↔
          (status = LUA_OK ∧ (lua_pcall api L1 0 LUA_MULTRET 0).2 = LUA_OK)) ∧
        (status ≠ LUA_OK → L2 = L1 ∧
          ∀ k, luaL_dofile { api with lua_pcallk := k } Default L fn = .ok (L1, true)) ∧
        (status = LUA_OK → L2 = (lua_pcall api L1 0 LUA_MULTRET 0).1)) ∧
    (∀ ex, luaL_loadstring api L s chunkEncoding = .error ex →
      luaL_dostring api L s chunkEncoding = .error ex) ∧
    (∀ ex, luaL_loadfile api Default L fn = .error ex →
      luaL_dofile api Default L fn = .error ex) := by
  refine ⟨?_, ?_, ?_, ?_⟩
  · intro L1 status hload
    have hload2 : ∀ k, luaL_loadstring { api with lua_pcallk := k } L s chunkEncoding
        = .ok (L1, status) := fun k => hload
    by_cases hst : status = LUA_OK
    · refine ⟨(lua_pcall api L1 0 LUA_MULTRET 0).1,
        (lua_pcall api L1 0 LUA_MULTRET 0).2 != LUA_OK, ?_, ?_, ?_, ?_, fun _ => rfl⟩
      · simp [luaL_dostring, hload, hst]
      · simp [hst]
      · simp [hst]
      · intro h; exact absurd hst h
    · refine ⟨L1, true, ?_, ?_, ?_, ?_, fun h => absurd h hst⟩
      · simp [luaL_dostring, hload, hst]
      · simp [hst]
      · simp [hst]
      · intro _
        exact ⟨rfl, fun k => by simp [luaL_dostring, hload2 k, hst]⟩
  · intro L1 status hload
    have hload2 : ∀ k, luaL_loadfile { api with lua_pcallk := k } Default L fn
        = .ok (L1, status) := fun k => hload
    by_cases hst : status = LUA_OK
    · refine ⟨(lua_pcall api L1 0 LUA_MULTRET 0).1,
        (lua_pcall api L1 0 LUA_MULTRET 0).2 != LUA_OK, ?_, ?_, ?_, ?_, fun _ => rfl⟩
      · simp [luaL_dofile, hload, hst]
      · simp [hst]
      · simp [hst]
      · intro h; exact absurd hst h
    · refine ⟨L1, true, ?_, ?_, ?_, ?_, fun h => absurd h hst⟩
      · simp [luaL_dofile, hload, hst]
      · simp [hst]
      · simp [hst]
      · intro _
        exact ⟨rfl, fun k => by simp [luaL_dofile, hload2 k, hst]⟩
  · intro ex hload
    simp [luaL_dostring, hload]
  · intro ex hload
    simp [luaL_dofile, hload]

/-- C26 at a concrete input, on a stand-in interpreter that records the native calls:
when the load of a chunk answers the status 3, `luaL_dostring` returns true and the only
native call made is the load; when `luaL_loadfilex` and the protected call both answer
`LUA_OK`, `luaL_dofile` returns false after the two calls. -/
theorem dostring_dofile_result_witness :
    luaL_dostring (recordingLua 3 0) [] (some "x = ") (some Encoding.ASCII)
      = .ok (["luaL_loadstring"], true) ∧
    luaL_dofile (recordingLua 0 0) Encoding.ASCII [] (some "init.lua")
      = .ok (["luaL_loadfilex", "lua_pcallk"], false) := by
  obtain ⟨h1, h2, -, -⟩ :=
    dostring_dofile_result (recordingLua 3 0) Encoding.ASCII [] (some "x = ")
      (some "init.lua") (some Encoding.ASCII)
  obtain ⟨L2, b, hrun, -, -, hfail, -⟩ := h1 ["luaL_loadstring"] 3 rfl
  refine ⟨?_, rfl⟩
  rw [(hfail (by decide)).2 (recordingLua 3 0).lua_pcallk]

/-- C27: for every `int` `i` for which `LUA_REGISTRYINDEX - i` does not overflow,
`lua_upvalueindex(i)` is `LUA_REGISTRYINDEX - i`.  Hence on such arguments it is
injective and strictly decreasing, and for `i >= 1` the result is strictly below
`LUA_REGISTRYINDEX`. -/
theorem lua_upvalueindex_spec (R i : Int) (hlo : -2 ^ 31 ≤ R - i) (hhi : R - i < 2 ^ 31) :
    lua_upvalueindex R i = R - i ∧
    (∀ j, -2 ^ 31 ≤ R - j → R - j < 2 ^ 31 →
      (lua_upvalueindex R i = lua_upvalueindex R j → i = j) ∧
      (i < j → lua_upvalueindex R j < lua_upvalueindex R i)) ∧
    (1 ≤ i → lua_upvalueindex R i < R) := by
  have key : ∀ j, -2 ^ 31 ≤ R - j → R - j < 2 ^ 31 → lua_upvalueindex R j = R - j := by
    intro j h1 h2
    simp only [lua_upvalueindex, int32]
    omega
  refine ⟨key i hlo hhi, ?_, ?_⟩
  · intro j h1 h2
    rw [key i hlo hhi, key j h1 h2]
    exact ⟨fun h => by omega, fun h => by omega⟩
  · intro h
    rw [key i hlo hhi]
    omega

/-- C27 at a concrete input: with the registry index -1001000, the first upvalue has the
pseudo-index -1001001. -/
theorem lua_upvalueindex_spec_witness : lua_upvalueindex (-1001000) 1 = -1001001 :=
  (lua_upvalueindex_spec (-1001000) 1 (by decide) (by decide)).1

/-- C28: `toCString` produces a NUL-terminated C string.  For every non-null string `s`
and encoding `e` the pinned buffer has `|e.GetBytes(s)| + 1` bytes, of which the first
`|e.GetBytes(s)|` are `e.GetBytes(s)` and the last is 0, and the pointer to it is not
null; for a null `s` the handle is unallocated and the pointer is `NULL`, whatever the
encoding. -/
theorem toCString_nul_terminated (s : String) (e : Encoding) (e2 : Option Encoding) :
    (∃ cs, toCString (some s) (some e) = .ok (.pinned cs) ∧
      cs.length = (e.GetBytes s).length + 1 ∧
      cs.take (e.GetBytes s).length = e.GetBytes s ∧
      cs.drop (e.GetBytes s).length = [0] ∧
      cs.getLast? = some 0 ∧
      (PinnedString.pinned cs).toCharPtr ≠ none) ∧
    toCString none e2 = .ok .unallocated ∧
    PinnedString.unallocated.toCharPtr = none := by
  refine ⟨⟨e.GetBytes s ++ [0], rfl, by simp, by simp, by simp, by simp, ?_⟩, rfl, rfl⟩
  simp [PinnedString.toCharPtr]

/-! ## Concurrent `Interject` calls -/

section ThreadsLemmas

variable {α : Type}

theorem nth_split {β : Type} (l : List β) (i : Nat) (y : β) (h : l[i]? = some y) :
    ∃ l1 l2, l = l1 ++ y :: l2 ∧ ∀ x, l.set i x = l1 ++ x :: l2 := by
  induction l generalizing i with
  | nil => simp at h
  | cons b bs ih =>
    cases i with
    | zero =>
      simp only [List.getElem?_cons_zero, Option.some.injEq] at h
      subst h
      exact ⟨[], bs, rfl, fun x => rfl⟩
    | succ n =>
      simp only [List.getElem?_cons_succ] at h
      obtain ⟨l1, l2, h1, h2⟩ := ih n h
      exact ⟨b :: l1, l2, by simp [h1], fun x => by simp [h2]⟩

theorem armed_enablehook (L : lua_State) : armed (luaW_enablehook L).1 = true := by
  simp only [armed, hookFires, luaW_enablehook]
  decide

theorem armed_disablehook (L : lua_State) : armed (luaW_disablehook L).1 = false := by
  simp only [armed, hookFires, luaW_disablehook]
  decide

/-- The two statements of `Interject`, one after the other, are `Interject`. -/
theorem Interject_eq_Enqueue_enablehook (s : LuaInterjector α) (a : α) :
    s.Interject a = (s.Enqueue a).enablehook := rfl

/-- Every step keeps the invariant and uses up the bound on the steps left. -/
theorem Threads.step_inv (actions : List α) (σ σ1 : Threads α) (t : Thread)
    (hinv : Threads.Inv actions σ) (hstep : σ.step t = some σ1) :
    Threads.Inv actions σ1 ∧ σ1.stepsLeft < σ.stepsLeft := by
  obtain ⟨hperm, hc, hent, hq⟩ := hinv
  cases t with
  | host i =>
    simp only [Threads.step] at hstep
    cases hi : σ.hosts[i]? with
    | none => simp [hi] at hstep
    | some y =>
      obtain ⟨a, pc⟩ := y
      obtain ⟨l1, l2, hl, hset⟩ := nth_split σ.hosts i (a, pc) hi
      cases pc with
      | called =>
        simp only [hi, Option.some.injEq] at hstep
        subst hstep
        refine ⟨⟨?_, hc, hent, ?_⟩, ?_⟩
        · refine List.Perm.trans ?_ hperm
          simp only [Threads.waiting, LuaInterjector.Enqueue, hset]
          simp only [hl, List.filter_append,
            List.filter_cons, List.map_append, List.map_cons, List.append_assoc, beq_self_eq_true,
            if_true]
          refine List.Perm.append_left _ (List.Perm.append_left _ ?_)
          simp only [show (HostPc.enqueued == HostPc.called) = false from rfl,
            Bool.false_eq_true, if_false, List.singleton_append]
          exact List.perm_middle.symm
        · intro _ _
          exact Or.inr ⟨(a, .enqueued), by simp [hset], rfl⟩
        · simp only [Threads.stepsLeft, LuaInterjector.Enqueue, hset]
          simp only [hl, List.map_append,
            List.map_cons, List.sum_append, List.sum_cons, List.length_append,
            List.length_singleton, HostPc.weight]
          omega
      | enqueued =>
        simp only [hi, Option.some.injEq] at hstep
        subst hstep
        refine ⟨⟨?_, hc, fun _ => armed_enablehook _, fun _ _ => Or.inl (armed_enablehook _)⟩,
          ?_⟩
        · refine List.Perm.trans ?_ hperm
          simp only [Threads.waiting, LuaInterjector.enablehook, hset]
          simp only [hl, List.filter_append,
            List.filter_cons, show (HostPc.enqueued == HostPc.called) = false from rfl,
            show (HostPc.returned == HostPc.called) = false from rfl, Bool.false_eq_true,
            if_false]
          exact List.Perm.refl _
        · simp only [Threads.stepsLeft, LuaInterjector.enablehook, hset]
          simp only [hl, List.map_append,
            List.map_cons, List.sum_append, List.sum_cons, HostPc.weight, armed_enablehook,
            if_true]
          split <;> omega
      | returned => simp [hi] at hstep
  | interpreter =>
    simp only [Threads.step] at hstep
    cases hp : σ.interpreter with
    | script =>
      simp only [hp] at hstep
      by_cases ha : armed σ.interjector.L = true
      · simp only [ha, if_true, Option.some.injEq] at hstep
        subst hstep
        refine ⟨⟨hperm, hc, fun _ => ha, fun _ h => by simp at h⟩, ?_⟩
        simp only [Threads.stepsLeft, hp, InterpreterPc.weight]
        omega
      · simp [ha] at hstep
    | entered =>
      simp only [hp, hc, Bool.false_eq_true, if_false, Option.some.injEq] at hstep
      subst hstep
      refine ⟨⟨hperm, rfl, fun h => by simp at h, fun _ h => by simp at h⟩, ?_⟩
      simp only [Threads.stepsLeft, hp, InterpreterPc.weight, hent hp, armed_disablehook,
        if_true, Bool.false_eq_true, if_false]
      omega
    | draining =>
      simp only [hp] at hstep
      cases hqueue : σ.interjector.interjections with
      | nil =>
        simp only [hqueue, Option.some.injEq] at hstep
        subst hstep
        refine ⟨⟨hperm, hc, fun h => by simp at h, fun h _ => absurd hqueue h⟩, ?_⟩
        simp only [Threads.stepsLeft, hp, InterpreterPc.weight]
        omega
      | cons a rest =>
        simp only [hqueue, Option.some.injEq] at hstep
        subst hstep
        refine ⟨⟨?_, hc, fun h => by simp [hp] at h, fun _ h => by simp [hp] at h⟩, ?_⟩
        · refine List.Perm.trans ?_ hperm
          simp [Threads.waiting, hqueue]
        · simp only [Threads.stepsLeft, hp, hqueue, List.length_cons]
          omega

/-- Every interleaving keeps the invariant, and its length is bounded. -/
theorem Threads.exec_inv (actions : List α) (ts : List Thread) (σ σ1 : Threads α)
    (hinv : Threads.Inv actions σ) (hexec : Threads.exec σ ts = some σ1) :
    Threads.Inv actions σ1 ∧ ts.length + σ1.stepsLeft ≤ σ.stepsLeft := by
  induction ts generalizing σ with
  | nil =>
    simp only [Threads.exec, Option.some.injEq] at hexec
    subst hexec
    exact ⟨hinv, by simp⟩
  | cons t ts ih =>
    simp only [Threads.exec, Option.bind_eq_some] at hexec
    obtain ⟨σ2, hstep, hrest⟩ := hexec
    obtain ⟨hinv2, hlt⟩ := Threads.step_inv actions σ σ2 t hinv hstep
    obtain ⟨hinv1, hle⟩ := ih σ2 hinv2 hrest
    exact ⟨hinv1, by simp only [List.length_cons]; omega⟩

theorem Threads.start_inv (L : lua_State) (hookDelegate : lua_Hook) (actions : List α) :
    Threads.Inv actions (Threads.start L hookDelegate actions) ∧
    (Threads.start L hookDelegate actions).stepsLeft = 6 * actions.length + 1 := by
  have hw : ∀ l : List α,
      ((l.map fun a => (a, HostPc.called)).filter fun h => h.2 == HostPc.called).map Prod.fst
        = l := by
    intro l
    induction l with
    | nil => rfl
    | cons a l ih => simpa [List.filter_cons] using ih
  have hsum : ∀ l : List α,
      ((l.map fun a => (a, HostPc.called)).map fun h => h.2.weight).sum = 6 * l.length := by
    intro l
    induction l with
    | nil => rfl
    | cons a l ih =>
      simp only [List.map_cons, List.sum_cons, List.length_cons, ih]
      simp only [HostPc.weight]
      omega
  have hm : armed (luaH_setnewinterjectionhook L hookDelegate : LuaInterjector α).L = false := by
    simp only [luaH_setnewinterjectionhook]
    simp [armed, hookFires, luaW_presethook, resethookcount, cast_byte]
  refine ⟨⟨?_, rfl, fun h => by simp [Threads.start] at h, fun h => absurd rfl h⟩, ?_⟩
  · simp only [Threads.start, Threads.waiting, hw]
    exact List.Perm.refl _
  · simp only [Threads.stepsLeft, Threads.start, hsum, hm, InterpreterPc.weight]
    rfl

/-- As long as the threads are not quiescent, one of them has a step to take. -/
theorem Threads.progress (σ : Threads α) (hcanc : σ.interjector.cancelled = false)
    (h : σ.quiescent = false) : ∃ t σ1, σ.step t = some σ1 := by
  suffices hsome : ∃ t, (σ.step t).isSome = true by
    obtain ⟨t, ht⟩ := hsome
    exact ⟨t, Option.isSome_iff_exists.1 ht⟩
  by_cases hp : σ.interpreter = .script
  · by_cases ha : armed σ.interjector.L = true
    · exact ⟨.interpreter, by simp [Threads.step, hp, ha]⟩
    · have hall : σ.hosts.all (fun h => h.2 == .returned) = false := by
        simpa [Threads.quiescent, hp, ha] using h
      have hex : ∃ y ∈ σ.hosts, ¬ (y.2 = HostPc.returned) := by
        by_contra hno
        have hno2 : ∀ y ∈ σ.hosts, y.2 = HostPc.returned := by
          intro y hy
          by_contra hne
          exact hno ⟨y, hy, hne⟩
        have hall2 : σ.hosts.all (fun h => h.2 == .returned) = true := by
          simp only [List.all_eq_true, beq_iff_eq]
          exact hno2
        rw [hall2] at hall
        exact Bool.noConfusion hall
      obtain ⟨y, hy, hne⟩ := hex
      obtain ⟨i, hi⟩ := List.mem_iff_getElem?.1 hy
      obtain ⟨a, pc⟩ := y
      cases pc with
      | called => exact ⟨.host i, by simp [Threads.step, hi]⟩
      | enqueued => exact ⟨.host i, by simp [Threads.step, hi]⟩
      | returned => exact absurd rfl hne
  · cases hpc : σ.interpreter with
    | script => exact absurd hpc hp
    | entered => exact ⟨.interpreter, by simp [Threads.step, hpc, hcanc]⟩
    | draining =>
      cases hq : σ.interjector.interjections with
      | nil => exact ⟨.interpreter, by simp [Threads.step, hpc, hq]⟩
      | cons a rest => exact ⟨.interpreter, by simp [Threads.step, hpc, hq]⟩

/-- Quiescent threads have no step to take. -/
theorem Threads.quiescent_stuck (σ : Threads α) (h : σ.quiescent = true) (t : Thread) :
    σ.step t = none := by
  simp only [Threads.quiescent, Bool.and_eq_true, Bool.not_eq_true', List.all_eq_true,
    beq_iff_eq] at h
  obtain ⟨⟨hall, hp⟩, ha⟩ := h
  cases t with
  | interpreter => simp [Threads.step, hp, ha]
  | host i =>
    simp only [Threads.step]
    cases hi : σ.hosts[i]? with
    | none => rfl
    | some y =>
      have hy := hall y (List.mem_iff_getElem?.2 ⟨i, hi⟩)
      obtain ⟨a, pc⟩ := y
      simp only at hy
      subst hy
      rfl

/-- In a quiescent state that satisfies the invariant, every delegate has been invoked. -/
theorem Threads.quiescent_done (actions : List α) (σ : Threads α)
    (hinv : Threads.Inv actions σ) (h : σ.quiescent = true) :
    σ.invoked.Perm actions ∧ σ.interjector.interjections = [] := by
  obtain ⟨hperm, -, -, hq⟩ := hinv
  simp only [Threads.quiescent, Bool.and_eq_true, Bool.not_eq_true', List.all_eq_true,
    beq_iff_eq] at h
  obtain ⟨⟨hall, hp⟩, ha⟩ := h
  have hqueue : σ.interjector.interjections = [] := by
    by_contra hne
    rcases hq hne hp with h1 | ⟨y, hy, hy2⟩
    · rw [ha] at h1
      exact Bool.noConfusion h1
    · rw [hall y hy] at hy2
      exact HostPc.noConfusion hy2
  have hwait : σ.waiting = [] := by
    simp only [Threads.waiting, List.map_eq_nil_iff, List.filter_eq_nil_iff, beq_iff_eq]
    intro y hy hy2
    rw [hall y hy] at hy2
    exact HostPc.noConfusion hy2
  rw [hqueue, hwait] at hperm
  exact ⟨by simpa using hperm, hqueue⟩

end ThreadsLemmas

/-- The loop of the handler, step by step: from the loop condition, with `q` queued and
no other thread interfering, `q.length + 1` steps of the interpreter thread invoke `q` in
order and leave the handler with the queue empty. -/
theorem Threads.exec_draining {α : Type} (q : List α) (σ : Threads α)
    (hp : σ.interpreter = .draining) (hq : σ.interjector.interjections = q) :
    Threads.exec σ (List.replicate (q.length + 1) .interpreter)
      = some { σ with
          interjector := { σ.interjector with interjections := [] },
          interpreter := .script, invoked := σ.invoked ++ q } := by
  induction q generalizing σ with
  | nil =>
    have hstep : σ.step .interpreter = some { σ with interpreter := .script } := by
      simp [Threads.step, hp, hq]
    have hsame : ({ σ with
          interjector := { σ.interjector with interjections := [] },
          interpreter := .script, invoked := σ.invoked ++ [] } : Threads α)
        = { σ with interpreter := .script } := by
      have hij : ∀ ij : LuaInterjector α, ij.interjections = [] →
          ({ ij with interjections := [] } : LuaInterjector α) = ij := by
        intro ij h
        cases ij
        simp only at h
        subst h
        rfl
      rw [hij _ hq, List.append_nil]
    rw [hsame]
    show (σ.step .interpreter).bind _ = _
    rw [hstep]
    rfl
  | cons a rest ih =>
    have hstep : σ.step .interpreter
        = some { σ with interjector := { σ.interjector with interjections := rest },
                        invoked := σ.invoked ++ [a] } := by
      simp [Threads.step, hp, hq]
    have h := ih { σ with interjector := { σ.interjector with interjections := rest },
                          invoked := σ.invoked ++ [a] } hp rfl
    show (σ.step .interpreter).bind _ = _
    rw [hstep]
    simp only [Option.some_bind]
    rw [List.length_cons]
    simpa using h

/-- The handler of the interleaved threads is `LuaInterjector::hook`: from the entry of
the handler, with no cancellation active, `q.length + 2` uninterrupted steps of the
interpreter thread leave the interjector as one run of `hook` with plain delegates does
and invoke the same delegates. -/
theorem Threads.exec_entered {α : Type} (beh : Behaviour α) (hbeh : beh.Plain)
    (σ : Threads α) (hp : σ.interpreter = .entered)
    (hc : σ.interjector.cancelled = false) :
    ∃ r, σ.interjector.hook beh (σ.interjector.interjections.length + 1) = some r ∧
      Threads.exec σ (List.replicate (σ.interjector.interjections.length + 2) .interpreter)
        = some { σ with interjector := r.state, interpreter := .script,
                        invoked := σ.invoked ++ r.invoked } := by
  refine ⟨{ exit := .returned, invoked := σ.interjector.interjections, enqueued := [],
            state := { σ.interjector with
              interjections := [], L := (luaW_disablehook σ.interjector.L).1 } }, ?_, ?_⟩
  · unfold LuaInterjector.hook
    rw [if_neg (by simp [hc])]
    exact drain_plain beh hbeh _ _ (by simp)
  · have hstep : σ.step .interpreter
        = some { σ with
            interjector := { σ.interjector with L := (luaW_disablehook σ.interjector.L).1 },
            interpreter := .draining } := by
      simp [Threads.step, hp, hc]
    show (σ.step .interpreter).bind _ = _
    rw [hstep]
    simp only [Option.some_bind]
    exact Threads.exec_draining σ.interjector.interjections _ rfl rfl

/-- C23: concurrent `Interject` calls.  Let N host threads each call `Interject` with a
delegate of its own on a new interjector, and let the steps of these calls (`Enqueue`,
then `luaW_enablehook`) be interleaved in any way with the steps of the interpreter
thread's handler (entry at a safepoint when the hook is armed, `luaW_disablehook`, every
round of the dequeue loop).  Then the interleaving has at most `6 N + 1` steps; at every
moment the delegates invoked, those queued and those not yet enqueued are together the N
delegates, so no delegate is invoked twice; as long as the threads are not quiescent
some thread has a step to take; and once they are quiescent (no thread has a step) the
queue is empty and the delegates invoked are exactly the N delegates, each once. -/
theorem concurrent_interjections_exactly_once {α : Type} (L : lua_State)
    (hookDelegate : lua_Hook) (actions : List α) (ts : List Thread) (σ : Threads α)
    (hexec : Threads.exec (Threads.start L hookDelegate actions) ts = some σ) :
    ts.length ≤ 6 * actions.length + 1 ∧
    (σ.invoked ++ σ.interjector.interjections ++ σ.waiting).Perm actions ∧
    (actions.Nodup → σ.invoked.Nodup) ∧
    (σ.quiescent = true →
      σ.invoked.Perm actions ∧ σ.interjector.interjections = [] ∧
      ∀ t, σ.step t = none) ∧
    (σ.quiescent = false → ∃ t σ1, σ.step t = some σ1) := by
  obtain ⟨hstart, hsteps⟩ := Threads.start_inv L hookDelegate actions
  obtain ⟨hinv, hlen⟩ := Threads.exec_inv actions ts _ σ hstart hexec
  refine ⟨by omega, hinv.1, ?_, ?_, ?_⟩
  · intro hnd
    have h1 : (σ.invoked ++ σ.interjector.interjections ++ σ.waiting).Nodup :=
      (List.Perm.nodup_iff hinv.1).2 hnd
    rw [List.append_assoc] at h1
    exact (List.nodup_append.1 h1).1
  · intro hq
    obtain ⟨h1, h2⟩ := Threads.quiescent_done actions σ hinv hq
    exact ⟨h1, h2, Threads.quiescent_stuck σ hq⟩
  · intro hq
    exact Threads.progress σ hinv.2.1 hq

/-- C23 at a concrete input: two host threads with the delegates 10 and 20.  Thread 1
enqueues first; the handler is entered after thread 0 armed the hook, is re-armed by
thread 1 after its `luaW_disablehook`, drains both delegates, and is entered once more
for an empty queue.  In the end both delegates have been invoked, 20 before 10. -/
theorem concurrent_interjections_exactly_once_witness :
    ∃ σ, Threads.exec (Threads.start sampleState 1 [10, 20])
        [.host 1, .host 0, .host 0, .interpreter, .interpreter, .host 1, .interpreter,
         .interpreter, .interpreter, .interpreter, .interpreter, .interpreter] = some σ ∧
      σ.invoked = [20, 10] ∧ σ.invoked.Perm [10, 20] := by
  cases hσ : Threads.exec (Threads.start sampleState 1 [10, 20])
      [.host 1, .host 0, .host 0, .interpreter, .interpreter, .host 1, .interpreter,
       .interpreter, .interpreter, .interpreter, .interpreter, .interpreter] with
  | none =>
    have h : (Threads.exec (Threads.start sampleState 1 [10, 20])
      [.host 1, .host 0, .host 0, .interpreter, .interpreter, .host 1, .interpreter,
       .interpreter, .interpreter, .interpreter, .interpreter, .interpreter]).isSome
        = true := by decide
    rw [hσ] at h
    exact Bool.noConfusion h
  | some σ =>
    have h : (Threads.exec (Threads.start sampleState 1 [10, 20])
      [.host 1, .host 0, .host 0, .interpreter, .interpreter, .host 1, .interpreter,
       .interpreter, .interpreter, .interpreter, .interpreter, .interpreter]).map
        (fun σ => (σ.invoked, σ.quiescent)) = some ([20, 10], true) := by decide
    rw [hσ] at h
    simp only [Option.map_some', Option.some.injEq, Prod.mk.injEq] at h
    exact ⟨σ, rfl, h.1,
      ((concurrent_interjections_exactly_once sampleState 1 [10, 20] _ σ hσ).2.2.2.1 h.2).1⟩

end Lua
